import Mathlib

/-!
Shallow embedding of the heartbeat liveness aggregate from
`src/extension/src/heartbeat_agg.rs`, together with proofs about the
interval-merging engine (`HeartbeatTransState`), the finalized aggregate
(`HeartbeatAgg`) and its query functions.

Times are modelled as unbounded `Int` (the source uses `i64` milliseconds;
the spec treats 64-bit overflow as out of scope, so no wrap-around is
modelled).  Code paths that panic in the source (`unwrap` on an empty
vector, failed `assert!`) are modelled with `Option`, `none` meaning panic.
-/

namespace Heartbeat

/-- Transition state of the heartbeat aggregate (struct `HeartbeatTransState`
in the source): observation window `[start, end_)`, per-heartbeat liveness
duration `interval_len`, pending heartbeat `buffer`, and the sorted list of
non-overlapping live intervals `liveness`. -/
structure HeartbeatTransState where
  start : Int
  end_ : Int
  interval_len : Int
  buffer : List Int
  liveness : List (Int × Int)
deriving DecidableEq, Repr

/-- Finalized aggregate (pg_type `HeartbeatAgg` in the source).  The field
`num_intervals` of the source is represented implicitly as the length of
`interval_starts`. -/
structure HeartbeatAgg where
  start_time : Int
  end_time : Int
  interval_len : Int
  interval_starts : List Int
  interval_ends : List Int
deriving DecidableEq, Repr

/-- Constant `BUFFER_SIZE` from the source: how many values to absorb before
consolidating. -/
def BUFFER_SIZE : Nat := 1000

/-- Constructor `HeartbeatTransState::new`. -/
def new (start end_ interval : Int) : HeartbeatTransState :=
  { start := start, end_ := end_, interval_len := interval, buffer := [], liveness := [] }

/-- Sweep loop of `process_batch`: fold the sorted heartbeat buffer into
run-length intervals.  `s` and `bound` are the start and bound of the current
run; a heartbeat at or below the bound extends the run, otherwise the run is
emitted and a new one starts. -/
def buildIntervals (L : Int) : Int → Int → List Int → List (Int × Int)
  | s, bound, [] => [(s, bound)]
  | s, bound, h :: rest =>
    if h ≤ bound then buildIntervals L s (h + L) rest
    else (s, bound) :: buildIntervals L h (h + L) rest

/-- Inner loop of the general two-iterator merge path of `combine_intervals`:
repeatedly consume intervals of `test` whose start lies at or below the
current `bound`, swapping `test` and `control` whenever the consumed interval
extends the bound (the `while test.peek() ...` loop of the source).  Returns
the remaining control iterator, the remaining test iterator, and the final
bound. -/
def absorb (ctl test : List (Int × Int)) (bound : Int) :
    List (Int × Int) × List (Int × Int) × Int :=
  match ctl, test, bound with
  | ctl, (s2, e2) :: rest, bound =>
    if s2 ≤ bound then
      if e2 > bound then absorb rest ctl e2
      else absorb ctl rest bound
    else (ctl, (s2, e2) :: rest, bound)
  | ctl, [], bound => (ctl, [], bound)
termination_by ctl.length + test.length
decreasing_by
  all_goals simp +arith [List.length_cons]

theorem absorb_length (ctl test : List (Int × Int)) (bound : Int) :
    (absorb ctl test bound).1.length + (absorb ctl test bound).2.1.length ≤
      ctl.length + test.length := by
  induction ctl, test, bound using absorb.induct with
  | case1 ctl s2 e2 rest bound hle hgt ih =>
    rw [absorb]
    simp only [hle, hgt, if_true]
    simp only [List.length_cons]
    omega
  | case2 ctl s2 e2 rest bound hle hgt ih =>
    rw [absorb]
    simp only [hle, hgt, if_true, if_false]
    simp only [List.length_cons]
    omega
  | case3 ctl s2 e2 rest bound hle =>
    rw [absorb]
    simp [hle]
  | case4 ctl bound =>
    rw [absorb]

/-- General path of `combine_intervals`: the two-iterator merge over the
`control` (existing liveness) and `test` (new batch) iterators.  Each outer
step consumes the interval with the smaller start, lets `absorb` extend its
bound with overlapping or touching intervals of the other iterator, and emits
the result; an exhausted iterator makes the other one drain. -/
def mergeLists (ctl test : List (Int × Int)) : List (Int × Int) :=
  match ctl, test with
  | [], t => t
  | c, [] => c
  | (s1, e1) :: cr, (s2, e2) :: tr =>
    if s1 < s2 then
      let r := absorb cr ((s2, e2) :: tr) e1
      (s1, r.2.2) :: mergeLists r.1 r.2.1
    else
      let r := absorb tr ((s1, e1) :: cr) e2
      (s2, r.2.2) :: mergeLists r.1 r.2.1
termination_by ctl.length + test.length
decreasing_by
  · have := absorb_length cr ((s2, e2) :: tr) e1
    simp only [List.length_cons] at *
    omega
  · have := absorb_length tr ((s1, e1) :: cr) e2
    simp only [List.length_cons] at *
    omega

/-- Method `HeartbeatTransState::combine_intervals`.  `none` models the
panics of `liveness.last().unwrap()` / `new_intervals.first().unwrap()` on an
empty input.  The ordered fast path fires when the existing last start is
below the first new start; with overlap it overwrites the last stored end
with the first new end (the source comment asserts the new bound must be
at least the old bound), otherwise it appends; the general path runs the
two-iterator merge. -/
def combine_intervals (liveness new_intervals : List (Int × Int)) :
    Option (List (Int × Int)) :=
  match liveness.getLast?, new_intervals.head? with
  | some last, some first_new =>
    if last.1 < first_new.1 then
      if last.2 ≥ first_new.1 then
        some (liveness.dropLast ++ [(last.1, first_new.2)] ++ new_intervals.tail)
      else
        some (liveness ++ new_intervals)
    else
      some (mergeLists liveness new_intervals)
  | _, _ => none

/-- Method `HeartbeatTransState::process_batch`: no-op on an empty buffer,
otherwise sort the buffer, sweep it into run-length intervals, and either
move them in (empty liveness) or merge them via `combine_intervals`; the
buffer is cleared.  The two `none` branches are unreachable (sorting keeps
the buffer non-empty, and both interval lists passed to `combine_intervals`
are non-empty). -/
def process_batch (st : HeartbeatTransState) : Option HeartbeatTransState :=
  match st.buffer with
  | [] => some st
  | _ :: _ =>
    match List.insertionSort (· ≤ ·) st.buffer with
    | [] => none
    | first :: rest =>
      let new_intervals :=
        buildIntervals st.interval_len first (first + st.interval_len) (first :: rest)
      if st.liveness = [] then
        some { st with buffer := [], liveness := new_intervals }
      else
        match combine_intervals st.liveness new_intervals with
        | some merged => some { st with buffer := [], liveness := merged }
        | none => none

/-- Method `HeartbeatTransState::insert`: assert the heartbeat lies in the
window (modelled as `none` on failure), flush the buffer once it holds
`BUFFER_SIZE` values, then push the heartbeat. -/
def insert (st : HeartbeatTransState) (time : Int) : Option HeartbeatTransState :=
  if st.start ≤ time ∧ time < st.end_ then
    if st.buffer.length ≥ BUFFER_SIZE then
      (process_batch st).map fun st2 => { st2 with buffer := st2.buffer ++ [time] }
    else
      some { st with buffer := st.buffer ++ [time] }
  else none

/-- Method `HeartbeatTransState::combine`: assert equal liveness lengths,
flush both states, then merge the other liveness into this one.  The window
bounds of `st` are kept unchanged. -/
def combine (st other : HeartbeatTransState) : Option HeartbeatTransState :=
  if st.interval_len = other.interval_len then
    (process_batch st).bind fun s =>
      (process_batch other).bind fun o =>
        (combine_intervals s.liveness o.liveness).map fun merged =>
          { s with liveness := merged }
  else none

/-- Finalization (`heartbeat_final_inner` without the host plumbing): flush,
unzip the liveness into the start and end arrays, and trim the last end to
the end of the aggregate's range. -/
def heartbeat_final (st : HeartbeatTransState) : Option HeartbeatAgg :=
  (process_batch st).map fun s =>
    let starts := s.liveness.map Prod.fst
    let ends0 := s.liveness.map Prod.snd
    let ends :=
      match ends0.getLast? with
      | some last => if last > s.end_ then ends0.dropLast ++ [s.end_] else ends0
      | none => ends0
    { start_time := s.start, end_time := s.end_, interval_len := s.interval_len,
      interval_starts := starts, interval_ends := ends }

/-- Conversion `From<HeartbeatAgg> for HeartbeatTransState` used by rollup:
copy the window and liveness length, start with an empty buffer, and zip the
stored interval arrays back into the liveness list. -/
def transStateOfAgg (agg : HeartbeatAgg) : HeartbeatTransState :=
  { start := agg.start_time, end_ := agg.end_time, interval_len := agg.interval_len,
    buffer := [], liveness := agg.interval_starts.zip agg.interval_ends }

/-- Rollup transition (`heartbeat_rollup_trans_inner`): keep the running
state when no aggregate arrives, convert the aggregate when there is no
running state, and otherwise combine.  The outer `Option` models a panic of
`combine`. -/
def heartbeat_rollup_trans (state : Option HeartbeatTransState)
    (value : Option HeartbeatAgg) : Option (Option HeartbeatTransState) :=
  match state, value with
  | a, none => some a
  | none, some a => some (some (transStateOfAgg a))
  | some a, some b => (combine a (transStateOfAgg b)).map some

/-- Query `live_ranges`: the stored intervals, as (start, end) pairs. -/
def live_ranges (agg : HeartbeatAgg) : List (Int × Int) :=
  agg.interval_starts.zip agg.interval_ends

/-- Query `dead_ranges`: with no intervals the whole window is dead;
otherwise the stored ends become dead starts and the stored starts become
dead ends, with the first point fixed up depending on whether the aggregate
starts live, and the last point depending on whether it ends live. -/
def dead_ranges (agg : HeartbeatAgg) : List (Int × Int) :=
  if agg.interval_starts.length = 0 then [(agg.start_time, agg.end_time)]
  else
    let starts0 := agg.interval_ends
    let ends0 := agg.interval_starts
    let p1 :=
      if ends0.head? = some agg.start_time then (starts0, ends0.tail)
      else (agg.start_time :: starts0, ends0)
    let p2 :=
      if p1.1.getLast? = some agg.end_time then (p1.1.dropLast, p1.2)
      else (p1.1, p1.2 ++ [agg.end_time])
    p2.1.zip p2.2

/-- Scan loop of `live_at` over the zipped interval arrays: return `false`
as soon as the probe lies before the current start, answer from the current
interval when the probe lies before the next start, and fall out of the loop
into a comparison with the last end. -/
def liveScan (t : Int) : List (Int × Int) → Bool
  | [] => false
  | (s, e) :: rest =>
    if t < s then false
    else
      match rest with
      | [] => decide (t < e)
      | (s2, _) :: _ => if t < s2 then decide (t < e) else liveScan t rest

/-- Query `live_at`: `false` on an aggregate with no intervals, otherwise
the scan over the interval arrays. -/
def live_at (agg : HeartbeatAgg) (t : Int) : Bool :=
  if agg.interval_starts.length = 0 then false
  else liveScan t (agg.interval_starts.zip agg.interval_ends)

/-- Driver for the claims about operation sequences: a script of heartbeat
inserts and explicit `process_batch` flushes run against a state. -/
inductive HbOp where
  | ins (t : Int)
  | flush
deriving DecidableEq, Repr

/-- Run a script of inserts and flushes; `none` when some step panics. -/
def runOps (st : HeartbeatTransState) : List HbOp → Option HeartbeatTransState
  | [] => some st
  | HbOp.ins t :: rest => (insert st t).bind fun s => runOps s rest
  | HbOp.flush :: rest => (process_batch st).bind fun s => runOps s rest

/-- Interval-list invariant of the data model (§3 of the spec, and the
comment on the `liveness` field of the source): every interval is non-empty
and consecutive intervals are separated by a strict gap, so the list is
sorted, non-overlapping and non-adjacent. -/
def goodChain : List (Int × Int) → Prop
  | [] => True
  | [p] => p.1 < p.2
  | p :: q :: rest => p.1 < p.2 ∧ p.2 < q.1 ∧ goodChain (q :: rest)

instance goodChainDecidable : (l : List (Int × Int)) → Decidable (goodChain l)
  | [] => .isTrue trivial
  | [p] => inferInstanceAs (Decidable (p.1 < p.2))
  | p :: q :: rest =>
    have : Decidable (goodChain (q :: rest)) := goodChainDecidable (q :: rest)
    inferInstanceAs (Decidable (p.1 < p.2 ∧ p.2 < q.1 ∧ goodChain (q :: rest)))

/-- Point-set semantics of an interval list: `t` lies in one of the
half-open intervals. -/
def covered (l : List (Int × Int)) (t : Int) : Prop :=
  ∃ p ∈ l, p.1 ≤ t ∧ t < p.2

instance coveredDecidable (l : List (Int × Int)) (t : Int) : Decidable (covered l t) :=
  inferInstanceAs (Decidable (∃ p ∈ l, p.1 ≤ t ∧ t < p.2))

theorem goodChain_tail {p : Int × Int} {l : List (Int × Int)}
    (h : goodChain (p :: l)) : goodChain l := by
  match l with
  | [] => trivial
  | q :: rest => exact h.2.2

theorem goodChain_head_lt {p : Int × Int} {l : List (Int × Int)}
    (h : goodChain (p :: l)) : p.1 < p.2 := by
  match l with
  | [] => exact h
  | q :: rest => exact h.1

theorem goodChain_rest_gt {p : Int × Int} {l : List (Int × Int)}
    (h : goodChain (p :: l)) : ∀ q ∈ l, p.2 < q.1 := by
  induction l generalizing p with
  | nil => intro q hq; cases hq
  | cons q rest ih =>
    intro r hr
    rcases List.mem_cons.mp hr with hr | hr
    · subst hr; exact h.2.1
    · have h2 : goodChain (q :: rest) := h.2.2
      calc p.2 < q.1 := h.2.1
        _ < q.2 := goodChain_head_lt h2
        _ < r.1 := ih h2 r hr

theorem goodChain_mem_lt {l : List (Int × Int)}
    (h : goodChain l) : ∀ p ∈ l, p.1 < p.2 := by
  induction l with
  | nil => intro p hp; cases hp
  | cons q rest ih =>
    intro p hp
    rcases List.mem_cons.mp hp with hp | hp
    · subst hp; exact goodChain_head_lt h
    · exact ih (goodChain_tail h) p hp

theorem goodChain_cons {p : Int × Int} {l : List (Int × Int)}
    (h1 : p.1 < p.2) (h2 : ∀ q, l.head? = some q → p.2 < q.1)
    (h3 : goodChain l) : goodChain (p :: l) := by
  match l with
  | [] => exact h1
  | q :: rest => exact ⟨h1, h2 q rfl, h3⟩

theorem covered_nil (t : Int) : ¬ covered [] t := by
  simp [covered]

theorem covered_cons {p : Int × Int} {l : List (Int × Int)} {t : Int} :
    covered (p :: l) t ↔ (p.1 ≤ t ∧ t < p.2) ∨ covered l t := by
  simp [covered]

theorem covered_append {a b : List (Int × Int)} {t : Int} :
    covered (a ++ b) t ↔ covered a t ∨ covered b t := by
  simp [covered, or_and_right, exists_or]

theorem covered_singleton {p : Int × Int} {t : Int} :
    covered [p] t ↔ p.1 ≤ t ∧ t < p.2 := by
  simp [covered]

/-- Points covered by a chain lie between its first start and its last end.
Stated with the head; the bound on the last end is in `covered_lt_lastEnd`. -/
theorem covered_head_le {p : Int × Int} {l : List (Int × Int)} {t : Int}
    (h : goodChain (p :: l)) (hc : covered (p :: l) t) : p.1 ≤ t := by
  rcases hc with ⟨q, hq, hq1, _⟩
  rcases List.mem_cons.mp hq with hq | hq
  · subst hq; exact hq1
  · have : p.2 < q.1 := goodChain_rest_gt h q hq
    have : p.1 < q.1 := lt_trans (goodChain_head_lt h) this
    omega

/-- Loop invariant of the merge's inner loop.  Entering `absorb` with two
chains, every unconsumed control interval starting beyond the bound, every
test interval starting at or beyond the emitted start `s`, and `s ≤ bound`,
the loop returns two chains whose intervals all start beyond the final
bound, the bound never shrinks, remaining intervals come from the inputs,
every input point survives in the remainder or inside `[s, bound')`, and
every point below the final bound was below the old bound or covered by an
input. -/
theorem absorb_spec (s : Int) (ctl test : List (Int × Int)) (bound : Int) :
    goodChain ctl → goodChain test → (∀ p ∈ ctl, bound < p.1) →
    (∀ p ∈ test, s ≤ p.1) → s ≤ bound →
    goodChain (absorb ctl test bound).1 ∧
    goodChain (absorb ctl test bound).2.1 ∧
    (∀ p ∈ (absorb ctl test bound).1, (absorb ctl test bound).2.2 < p.1) ∧
    (∀ p ∈ (absorb ctl test bound).2.1, (absorb ctl test bound).2.2 < p.1) ∧
    bound ≤ (absorb ctl test bound).2.2 ∧
    (∀ p, p ∈ (absorb ctl test bound).1 ∨ p ∈ (absorb ctl test bound).2.1 →
      p ∈ ctl ∨ p ∈ test) ∧
    (∀ t, covered ctl t ∨ covered test t →
      covered (absorb ctl test bound).1 t ∨ covered (absorb ctl test bound).2.1 t ∨
        (s ≤ t ∧ t < (absorb ctl test bound).2.2)) ∧
    (∀ t, s ≤ t → t < (absorb ctl test bound).2.2 →
      t < bound ∨ covered ctl t ∨ covered test t) := by
  induction ctl, test, bound using absorb.induct with
  | case1 ctl s2 e2 rest bound hle hgt ih =>
    intro hctl htest hcb hts hsb
    rw [absorb]
    simp only [hle, hgt, if_true]
    have htail : goodChain rest := goodChain_tail htest
    have hrest : ∀ p ∈ rest, e2 < p.1 := goodChain_rest_gt htest
    have hts2 : ∀ p ∈ ctl, s ≤ p.1 := fun p hp => le_of_lt (lt_of_le_of_lt hsb (hcb p hp))
    have hse2 : s ≤ e2 := le_of_lt (lt_of_le_of_lt hsb hgt)
    have hs2 : s ≤ s2 := hts (s2, e2) (List.mem_cons_self _ _)
    obtain ⟨g1, g2, g3, g4, g5, g6, g7, g8⟩ := ih htail hctl hrest hts2 hse2
    refine ⟨g1, g2, g3, g4, le_trans (le_of_lt hgt) g5, ?_, ?_, ?_⟩
    · intro p hp
      rcases g6 p hp with h | h
      · exact Or.inr (List.mem_cons_of_mem _ h)
      · exact Or.inl h
    · intro t hcov
      rcases hcov with h | h
      · exact g7 t (Or.inr h)
      · rcases covered_cons.mp h with ⟨h1, h2⟩ | h
        · exact Or.inr (Or.inr ⟨le_trans hs2 h1, lt_of_lt_of_le h2 g5⟩)
        · exact g7 t (Or.inl h)
    · intro t hst htb
      rcases g8 t hst htb with h | h | h
      · by_cases hts2' : s2 ≤ t
        · exact Or.inr (Or.inr (covered_cons.mpr (Or.inl ⟨hts2', h⟩)))
        · exact Or.inl (lt_of_lt_of_le (lt_of_not_le hts2') hle)
      · exact Or.inr (Or.inr (covered_cons.mpr (Or.inr h)))
      · exact Or.inr (Or.inl h)
  | case2 ctl s2 e2 rest bound hle hgt ih =>
    intro hctl htest hcb hts hsb
    rw [absorb]
    simp only [hle, hgt, if_true, if_false]
    have htail : goodChain rest := goodChain_tail htest
    have hrest : ∀ p ∈ rest, s ≤ p.1 := fun p hp => hts p (List.mem_cons_of_mem _ hp)
    have hs2 : s ≤ s2 := hts (s2, e2) (List.mem_cons_self _ _)
    have he2 : e2 ≤ bound := le_of_not_lt hgt
    obtain ⟨g1, g2, g3, g4, g5, g6, g7, g8⟩ := ih hctl htail hcb hrest hsb
    refine ⟨g1, g2, g3, g4, g5, ?_, ?_, ?_⟩
    · intro p hp
      rcases g6 p hp with h | h
      · exact Or.inl h
      · exact Or.inr (List.mem_cons_of_mem _ h)
    · intro t hcov
      rcases hcov with h | h
      · exact g7 t (Or.inl h)
      · rcases covered_cons.mp h with ⟨h1, h2⟩ | h
        · exact Or.inr (Or.inr ⟨le_trans hs2 h1,
            lt_of_lt_of_le (lt_of_lt_of_le h2 he2) g5⟩)
        · exact g7 t (Or.inr h)
    · intro t hst htb
      rcases g8 t hst htb with h | h | h
      · exact Or.inl h
      · exact Or.inr (Or.inl h)
      · exact Or.inr (Or.inr (covered_cons.mpr (Or.inr h)))
  | case3 ctl s2 e2 rest bound hle =>
    intro hctl htest hcb hts hsb
    rw [absorb]
    simp only [hle, if_false]
    have hs2 : bound < s2 := lt_of_not_le hle
    refine ⟨hctl, htest, hcb, ?_, le_refl _, fun p hp => hp, ?_, ?_⟩
    · intro p hp
      rcases List.mem_cons.mp hp with hp | hp
      · subst hp; exact hs2
      · calc bound < s2 := hs2
          _ < e2 := goodChain_head_lt htest
          _ < p.1 := goodChain_rest_gt htest p hp
    · intro t hcov
      rcases hcov with h | h
      · exact Or.inl h
      · exact Or.inr (Or.inl h)
    · intro t _ htb
      exact Or.inl htb
  | case4 ctl bound =>
    intro hctl htest hcb hts hsb
    rw [absorb]
    refine ⟨hctl, trivial, hcb, ?_, le_refl _, fun p hp => hp, ?_, ?_⟩
    · intro p hp; cases hp
    · intro t hcov
      rcases hcov with h | h
      · exact Or.inl h
      · exact absurd h (covered_nil t)
    · intro t _ htb
      exact Or.inl htb

theorem covered_of_mem_split {l a b : List (Int × Int)} {t : Int}
    (h : ∀ p, p ∈ l → p ∈ a ∨ p ∈ b) (hc : covered l t) :
    covered a t ∨ covered b t := by
  rcases hc with ⟨p, hp, h1, h2⟩
  rcases h p hp with hm | hm
  · exact Or.inl ⟨p, hm, h1, h2⟩
  · exact Or.inr ⟨p, hm, h1, h2⟩

/-- Correctness of the general two-iterator merge path: on two chains it
produces a chain covering exactly the union of the input point sets, and
every emitted start is the start of some input interval. -/
theorem mergeLists_spec (a b : List (Int × Int)) :
    goodChain a → goodChain b →
    goodChain (mergeLists a b) ∧
    (∀ t, covered (mergeLists a b) t ↔ covered a t ∨ covered b t) ∧
    (∀ p ∈ mergeLists a b, ∃ q, (q ∈ a ∨ q ∈ b) ∧ q.1 = p.1) := by
  induction a, b using mergeLists.induct with
  | case1 t =>
    intro _ hb
    rw [mergeLists]
    refine ⟨hb, fun t' => ?_, fun p hp => ⟨p, Or.inr hp, rfl⟩⟩
    simp [covered]
  | case2 c hne =>
    intro ha _
    cases c with
    | nil => exact absurd rfl hne
    | cons p cs =>
      rw [mergeLists]
      · refine ⟨ha, fun t' => ?_, fun q hq => ⟨q, Or.inl hq, rfl⟩⟩
        simp [covered]
      · exact hne
  | case3 s1 e1 cr s2 e2 tr hlt r ih =>
    intro ha hb
    have hae : s1 < e1 := goodChain_head_lt ha
    have hcr : goodChain cr := goodChain_tail ha
    have hcb : ∀ p ∈ cr, e1 < p.1 := goodChain_rest_gt ha
    have htb : ∀ p ∈ (s2, e2) :: tr, s1 ≤ p.1 := by
      intro p hp
      rcases List.mem_cons.mp hp with hp | hp
      · subst hp; exact le_of_lt hlt
      · have h1 : e2 < p.1 := goodChain_rest_gt hb p hp
        have h2 : s2 < e2 := goodChain_head_lt hb
        omega
    obtain ⟨g1, g2, g3, g4, g5, g6, g7, g8⟩ :=
      absorb_spec s1 cr ((s2, e2) :: tr) e1 hcr hb hcb htb (le_of_lt hae)
    obtain ⟨m1, m2, m3⟩ := ih g1 g2
    rw [mergeLists]
    simp only [hlt, if_true]
    refine ⟨?_, ?_, ?_⟩
    · refine goodChain_cons (lt_of_lt_of_le hae g5) ?_ m1
      intro q hq
      obtain ⟨qq, hqq, hq1⟩ := m3 q (List.mem_of_mem_head? hq)
      rw [← hq1]
      rcases hqq with h | h
      · exact g3 qq h
      · exact g4 qq h
    · intro t
      rw [covered_cons, m2]
      constructor
      · rintro (⟨h1, h2⟩ | h | h)
        · rcases g8 t h1 h2 with h | h | h
          · exact Or.inl (covered_cons.mpr (Or.inl ⟨h1, h⟩))
          · exact Or.inl (covered_cons.mpr (Or.inr h))
          · exact Or.inr h
        · rcases covered_of_mem_split (fun p hp => g6 p (Or.inl hp)) h with h | h
          · exact Or.inl (covered_cons.mpr (Or.inr h))
          · exact Or.inr h
        · rcases covered_of_mem_split (fun p hp => g6 p (Or.inr hp)) h with h | h
          · exact Or.inl (covered_cons.mpr (Or.inr h))
          · exact Or.inr h
      · rintro (h | h)
        · rcases covered_cons.mp h with ⟨h1, h2⟩ | h
          · exact Or.inl ⟨h1, lt_of_lt_of_le h2 g5⟩
          · rcases g7 t (Or.inl h) with h | h | h
            · exact Or.inr (Or.inl h)
            · exact Or.inr (Or.inr h)
            · exact Or.inl h
        · rcases g7 t (Or.inr h) with h | h | h
          · exact Or.inr (Or.inl h)
          · exact Or.inr (Or.inr h)
          · exact Or.inl h
    · intro p hp
      rcases List.mem_cons.mp hp with hp | hp
      · subst hp
        exact ⟨(s1, e1), Or.inl (List.mem_cons_self _ _), rfl⟩
      · obtain ⟨q, hq, hq1⟩ := m3 p hp
        have hmem : q ∈ cr ∨ q ∈ (s2, e2) :: tr := by
          rcases hq with h | h
          · exact g6 q (Or.inl h)
          · exact g6 q (Or.inr h)
        rcases hmem with h2 | h2
        · exact ⟨q, Or.inl (List.mem_cons_of_mem _ h2), hq1⟩
        · exact ⟨q, Or.inr h2, hq1⟩
  | case4 s1 e1 cr s2 e2 tr hlt r ih =>
    intro ha hb
    have hbe : s2 < e2 := goodChain_head_lt hb
    have htr : goodChain tr := goodChain_tail hb
    have hcb : ∀ p ∈ tr, e2 < p.1 := goodChain_rest_gt hb
    have hts : ∀ p ∈ (s1, e1) :: cr, s2 ≤ p.1 := by
      intro p hp
      rcases List.mem_cons.mp hp with hp | hp
      · subst hp; exact le_of_not_lt hlt
      · have h1 : e1 < p.1 := goodChain_rest_gt ha p hp
        have h2 : s1 < e1 := goodChain_head_lt ha
        have h3 : s2 ≤ s1 := le_of_not_lt hlt
        omega
    obtain ⟨g1, g2, g3, g4, g5, g6, g7, g8⟩ :=
      absorb_spec s2 tr ((s1, e1) :: cr) e2 htr ha hcb hts (le_of_lt hbe)
    obtain ⟨m1, m2, m3⟩ := ih g1 g2
    rw [mergeLists]
    simp only [hlt, if_false]
    refine ⟨?_, ?_, ?_⟩
    · refine goodChain_cons (lt_of_lt_of_le hbe g5) ?_ m1
      intro q hq
      obtain ⟨qq, hqq, hq1⟩ := m3 q (List.mem_of_mem_head? hq)
      rw [← hq1]
      rcases hqq with h | h
      · exact g3 qq h
      · exact g4 qq h
    · intro t
      rw [covered_cons, m2]
      constructor
      · rintro (⟨h1, h2⟩ | h | h)
        · rcases g8 t h1 h2 with h | h | h
          · exact Or.inr (covered_cons.mpr (Or.inl ⟨h1, h⟩))
          · exact Or.inr (covered_cons.mpr (Or.inr h))
          · exact Or.inl h
        · rcases covered_of_mem_split (fun p hp => g6 p (Or.inl hp)) h with h | h
          · exact Or.inr (covered_cons.mpr (Or.inr h))
          · exact Or.inl h
        · rcases covered_of_mem_split (fun p hp => g6 p (Or.inr hp)) h with h | h
          · exact Or.inr (covered_cons.mpr (Or.inr h))
          · exact Or.inl h
      · rintro (h | h)
        · rcases g7 t (Or.inr h) with h | h | h
          · exact Or.inr (Or.inl h)
          · exact Or.inr (Or.inr h)
          · exact Or.inl h
        · rcases covered_cons.mp h with ⟨h1, h2⟩ | h
          · exact Or.inl ⟨h1, lt_of_lt_of_le h2 g5⟩
          · rcases g7 t (Or.inl h) with h | h | h
            · exact Or.inr (Or.inl h)
            · exact Or.inr (Or.inr h)
            · exact Or.inl h
    · intro p hp
      rcases List.mem_cons.mp hp with hp | hp
      · subst hp
        exact ⟨(s2, e2), Or.inr (List.mem_cons_self _ _), rfl⟩
      · obtain ⟨q, hq, hq1⟩ := m3 p hp
        have hmem : q ∈ tr ∨ q ∈ (s1, e1) :: cr := by
          rcases hq with h | h
          · exact g6 q (Or.inl h)
          · exact g6 q (Or.inr h)
        rcases hmem with h2 | h2
        · exact ⟨q, Or.inr (List.mem_cons_of_mem _ h2), hq1⟩
        · exact ⟨q, Or.inl h2, hq1⟩

theorem goodChain_nil : goodChain [] := trivial

theorem goodChain_singleton {p : Int × Int} : goodChain [p] ↔ p.1 < p.2 := Iff.rfl

theorem goodChain_cons_iff {p : Int × Int} {l : List (Int × Int)} :
    goodChain (p :: l) ↔
      p.1 < p.2 ∧ (∀ q, l.head? = some q → p.2 < q.1) ∧ goodChain l := by
  constructor
  · intro h
    refine ⟨goodChain_head_lt h, ?_, goodChain_tail h⟩
    intro q hq
    exact goodChain_rest_gt h q (List.mem_of_mem_head? hq)
  · rintro ⟨h1, h2, h3⟩
    exact goodChain_cons h1 h2 h3

theorem goodChain_append_iff {xs ys : List (Int × Int)} :
    goodChain (xs ++ ys) ↔
      goodChain xs ∧ goodChain ys ∧
        (∀ p, xs.getLast? = some p → ∀ q, ys.head? = some q → p.2 < q.1) := by
  induction xs with
  | nil => simp [goodChain_nil]
  | cons p xs ih =>
    cases xs with
    | nil =>
      simp only [List.singleton_append, List.getLast?_singleton]
      rw [goodChain_cons_iff]
      constructor
      · rintro ⟨h1, h2, h3⟩
        refine ⟨goodChain_singleton.mpr h1, h3, ?_⟩
        intro p' hp' q hq
        rw [Option.some.injEq] at hp'
        subst hp'
        exact h2 q hq
      · rintro ⟨hx, h3, h4⟩
        exact ⟨goodChain_singleton.mp hx, fun q hq => h4 p rfl q hq, h3⟩
    | cons x xs' =>
      rw [List.cons_append]
      constructor
      · intro h
        obtain ⟨h1, h2, h3⟩ := goodChain_cons_iff.mp h
        obtain ⟨h4, h5, h6⟩ := ih.mp h3
        refine ⟨goodChain_cons_iff.mpr ⟨h1, ?_, h4⟩, h5, ?_⟩
        · intro q hq
          apply h2
          rw [List.cons_append]
          simpa using hq
        · intro p' hp' q hq
          rw [List.getLast?_cons_cons] at hp'
          exact h6 p' hp' q hq
      · rintro ⟨hx, h5, h6⟩
        obtain ⟨h1, h2, h4⟩ := goodChain_cons_iff.mp hx
        refine goodChain_cons_iff.mpr ⟨h1, ?_, ?_⟩
        · intro q hq
          apply h2
          rw [List.cons_append] at hq
          simpa using hq
        · refine ih.mpr ⟨h4, h5, ?_⟩
          intro p' hp' q hq
          refine h6 p' ?_ q hq
          rw [List.getLast?_cons_cons]
          exact hp'

theorem eq_dropLast_concat_of_getLast? {l : List (Int × Int)} {a : Int × Int}
    (h : l.getLast? = some a) : l = l.dropLast ++ [a] := by
  have hne : l ≠ [] := by
    intro he
    subst he
    simp at h
  have h2 := List.getLast?_eq_getLast l hne
  rw [h2, Option.some.injEq] at h
  rw [← h]
  exact (List.dropLast_append_getLast hne).symm

/-- Unfolding equation for `combine_intervals` once the last existing
interval and the first new interval are known. -/
theorem combine_intervals_eq {A B : List (Int × Int)} {la b0 : Int × Int}
    (hla : A.getLast? = some la) (hb0 : B.head? = some b0) :
    combine_intervals A B =
      if la.1 < b0.1 then
        if la.2 ≥ b0.1 then some (A.dropLast ++ [(la.1, b0.2)] ++ B.tail)
        else some (A ++ B)
      else some (mergeLists A B) := by
  unfold combine_intervals
  rw [hla, hb0]

/-- Method `combine_intervals` never panics on two non-empty inputs. -/
theorem combine_intervals_isSome {A B : List (Int × Int)} (hA : A ≠ []) (hB : B ≠ []) :
    ∃ C, combine_intervals A B = some C := by
  obtain ⟨la, hla⟩ := Option.isSome_iff_exists.mp (List.getLast?_isSome.mpr hA)
  have hBs : B.head?.isSome := by
    cases B with
    | nil => exact absurd rfl hB
    | cons b tb => rfl
  obtain ⟨b0, hb0⟩ := Option.isSome_iff_exists.mp hBs
  rw [combine_intervals_eq hla hb0]
  split_ifs <;> exact ⟨_, rfl⟩

/-- Structural output facts of `combine_intervals` on two chains: the result
is again a chain and every result interval's start is the start of some
input interval.  This holds on both paths, including the buggy overwrite of
the last end in the overlapping fast path. -/
theorem combine_intervals_spec {A B C : List (Int × Int)}
    (hA : goodChain A) (hB : goodChain B)
    (h : combine_intervals A B = some C) :
    goodChain C ∧ (∀ p ∈ C, ∃ q, (q ∈ A ∨ q ∈ B) ∧ q.1 = p.1) := by
  cases hla : A.getLast? with
  | none =>
    unfold combine_intervals at h
    rw [hla] at h
    cases h
  | some la =>
  cases hb0 : B.head? with
  | none =>
    unfold combine_intervals at h
    rw [hla, hb0] at h
    cases B <;> cases h
  | some b0 =>
  rw [combine_intervals_eq hla hb0] at h
  have hAeq : A = A.dropLast ++ [la] := eq_dropLast_concat_of_getLast? hla
  have hBeq : B = b0 :: B.tail := List.eq_cons_of_mem_head? hb0
  have hBhead : b0.1 < b0.2 := by
    rw [hBeq] at hB
    exact goodChain_head_lt hB
  obtain ⟨hD, hlalt, hgapD⟩ :
      goodChain A.dropLast ∧ goodChain [la] ∧
        (∀ p, A.dropLast.getLast? = some p → ∀ q, [la].head? = some q → p.2 < q.1) := by
    rw [hAeq] at hA
    exact goodChain_append_iff.mp hA
  split_ifs at h with h1 h2
  · -- ordered fast path with overlap: overwrite the last end
    rw [Option.some.injEq] at h
    subst h
    constructor
    · rw [goodChain_append_iff]
      refine ⟨?_, ?_, ?_⟩
      · rw [goodChain_append_iff]
        refine ⟨hD, goodChain_singleton.mpr (lt_trans h1 hBhead), ?_⟩
        intro p hp q hq
        rw [List.head?_cons, Option.some.injEq] at hq
        subst hq
        exact hgapD p hp la rfl
      · rw [hBeq] at hB
        exact goodChain_tail hB
      · intro p hp q hq
        rw [List.getLast?_concat, Option.some.injEq] at hp
        subst hp
        rw [hBeq] at hB
        exact goodChain_rest_gt hB q (List.mem_of_mem_head? hq)
    · intro p hp
      rcases List.mem_append.mp hp with hp | hp
      · rcases List.mem_append.mp hp with hp | hp
        · exact ⟨p, Or.inl (by rw [hAeq]; exact List.mem_append_left _ hp), rfl⟩
        · rw [List.mem_singleton] at hp
          subst hp
          exact ⟨la, Or.inl (by rw [hAeq]; simp), rfl⟩
      · exact ⟨p, Or.inr (by rw [hBeq]; exact List.mem_cons_of_mem _ hp), rfl⟩
  · -- ordered fast path without overlap: append
    rw [Option.some.injEq] at h
    subst h
    constructor
    · rw [goodChain_append_iff]
      refine ⟨hA, hB, ?_⟩
      intro p hp q hq
      rw [hla, Option.some.injEq] at hp
      subst hp
      rw [hb0, Option.some.injEq] at hq
      subst hq
      omega
    · intro p hp
      rcases List.mem_append.mp hp with hp | hp
      · exact ⟨p, Or.inl hp, rfl⟩
      · exact ⟨p, Or.inr hp, rfl⟩
  · -- general path: two-iterator merge
    rw [Option.some.injEq] at h
    subst h
    obtain ⟨m1, _, m3⟩ := mergeLists_spec A B hA hB
    exact ⟨m1, m3⟩

/-- Union semantics of `combine_intervals` on two chains, under the
pre-extension hypothesis the spec states for the overlapping fast path:
when that path fires, the first new end must be at least the stored last
end.  Under it the result covers exactly the union of the input points. -/
theorem combine_intervals_union {A B C : List (Int × Int)}
    (hA : goodChain A) (hB : goodChain B)
    (hmono : ∀ la, A.getLast? = some la → ∀ b0, B.head? = some b0 →
      la.1 < b0.1 → b0.1 ≤ la.2 → la.2 ≤ b0.2)
    (h : combine_intervals A B = some C) :
    ∀ t, covered C t ↔ covered A t ∨ covered B t := by
  cases hla : A.getLast? with
  | none =>
    unfold combine_intervals at h
    rw [hla] at h
    cases h
  | some la =>
  cases hb0 : B.head? with
  | none =>
    unfold combine_intervals at h
    rw [hla, hb0] at h
    cases B <;> cases h
  | some b0 =>
  rw [combine_intervals_eq hla hb0] at h
  have hAeq : A = A.dropLast ++ [la] := eq_dropLast_concat_of_getLast? hla
  have hBeq : B = b0 :: B.tail := List.eq_cons_of_mem_head? hb0
  have hBhead : b0.1 < b0.2 := by
    rw [hBeq] at hB
    exact goodChain_head_lt hB
  have hlalt : la.1 < la.2 := by
    rw [hAeq] at hA
    exact (goodChain_append_iff.mp hA).2.1
  split_ifs at h with h1 h2
  · rw [Option.some.injEq] at h
    subst h
    intro t
    have hm := hmono la hla b0 hb0 h1 h2
    rw [covered_append, covered_append, covered_singleton]
    conv_rhs => rw [hAeq, hBeq]
    rw [covered_append, covered_singleton, covered_cons]
    constructor
    · rintro ((h | h) | h)
      · exact Or.inl (Or.inl h)
      · rcases lt_or_le t la.2 with ht | ht
        · exact Or.inl (Or.inr ⟨h.1, ht⟩)
        · refine Or.inr (Or.inl ⟨?_, h.2⟩)
          omega
      · exact Or.inr (Or.inr h)
    · rintro ((h | h) | (h | h))
      · exact Or.inl (Or.inl h)
      · refine Or.inl (Or.inr ⟨h.1, ?_⟩)
        omega
      · refine Or.inl (Or.inr ⟨?_, h.2⟩)
        omega
      · exact Or.inr h
  · rw [Option.some.injEq] at h
    subst h
    intro t
    rw [covered_append]
  · rw [Option.some.injEq] at h
    subst h
    exact (mergeLists_spec A B hA hB).2.1

/-- Well-formed transition state, following the data model of §3 of the
spec: positive liveness length, non-degenerate window, `liveness` a chain
whose starts are in-window heartbeat times (every start is a heartbeat, or
an aggregate interval start, both below the window end), and buffered
heartbeats inside the window. -/
def StateWF (st : HeartbeatTransState) : Prop :=
  0 < st.interval_len ∧ st.start < st.end_ ∧ goodChain st.liveness ∧
    (∀ p ∈ st.liveness, st.start ≤ p.1 ∧ p.1 < st.end_) ∧
    (∀ b ∈ st.buffer, st.start ≤ b ∧ b < st.end_)

instance stateWFDecidable (st : HeartbeatTransState) : Decidable (StateWF st) :=
  inferInstanceAs (Decidable (0 < st.interval_len ∧ st.start < st.end_ ∧
    goodChain st.liveness ∧
    (∀ p ∈ st.liveness, st.start ≤ p.1 ∧ p.1 < st.end_) ∧
    (∀ b ∈ st.buffer, st.start ≤ b ∧ b < st.end_)))

theorem buildIntervals_ne_nil (L s bound : Int) (l : List Int) :
    buildIntervals L s bound l ≠ [] := by
  induction l generalizing s bound with
  | nil => simp [buildIntervals]
  | cons h rest ih =>
    rw [buildIntervals]
    split_ifs
    · exact ih s (h + L)
    · simp

/-- The run-building sweep of `process_batch` on a sorted buffer whose
elements all lie at or above the current run start produces a chain whose
first interval starts at the current run start. -/
theorem buildIntervals_spec (L : Int) (hL : 0 < L) :
    ∀ (l : List Int) (s bound : Int), s < bound → (∀ x ∈ l, s ≤ x) →
      List.Pairwise (· ≤ ·) l →
      goodChain (buildIntervals L s bound l) ∧
        (∃ e tl, buildIntervals L s bound l = (s, e) :: tl) := by
  intro l
  induction l with
  | nil =>
    intro s bound hsb _ _
    exact ⟨hsb, bound, [], rfl⟩
  | cons h rest ih =>
    intro s bound hsb hmem hsorted
    rw [buildIntervals]
    split_ifs with hh
    · have hsh : s ≤ h := hmem h (List.mem_cons_self _ _)
      exact ih s (h + L) (by omega)
        (fun x hx => hmem x (List.mem_cons_of_mem _ hx))
        (List.Pairwise.sublist (List.sublist_cons_self _ _) hsorted)
    · have hrest : ∀ x ∈ rest, h ≤ x := (List.pairwise_cons.mp hsorted).1
      obtain ⟨hchain, e, tl, heq⟩ := ih h (h + L) (by omega) hrest
        (List.Pairwise.sublist (List.sublist_cons_self _ _) hsorted)
      refine ⟨?_, bound, _, rfl⟩
      refine goodChain_cons hsb ?_ hchain
      intro q hq
      rw [heq, List.head?_cons, Option.some.injEq] at hq
      subst hq
      omega

/-- Every interval produced by the sweep starts at the initial run start or
at one of the heartbeats of the list. -/
theorem buildIntervals_starts (L : Int) :
    ∀ (l : List Int) (s bound : Int), ∀ p ∈ buildIntervals L s bound l,
      p.1 = s ∨ p.1 ∈ l := by
  intro l
  induction l with
  | nil =>
    intro s bound p hp
    rw [buildIntervals, List.mem_singleton] at hp
    subst hp
    exact Or.inl rfl
  | cons h rest ih =>
    intro s bound p hp
    rw [buildIntervals] at hp
    split_ifs at hp with hh
    · rcases ih s (h + L) p hp with h1 | h1
      · exact Or.inl h1
      · exact Or.inr (List.mem_cons_of_mem _ h1)
    · rcases List.mem_cons.mp hp with h1 | h1
      · subst h1
        exact Or.inl rfl
      · rcases ih h (h + L) p h1 with h1 | h1
        · exact Or.inr (h1 ▸ List.mem_cons_self _ _)
        · exact Or.inr (List.mem_cons_of_mem _ h1)

/-- Unfolding equation for `process_batch` once the sorted buffer is known
to be non-empty. -/
theorem process_batch_eq {st : HeartbeatTransState} {f : Int} {rest : List Int}
    (hs : List.insertionSort (· ≤ ·) st.buffer = f :: rest) :
    process_batch st =
      if st.liveness = [] then
        some { st with buffer := [], liveness := buildIntervals st.interval_len f (f + st.interval_len) (f :: rest) }
      else
        match combine_intervals st.liveness
            (buildIntervals st.interval_len f (f + st.interval_len) (f :: rest)) with
        | some merged => some { st with buffer := [], liveness := merged }
        | none => none := by
  have hb : st.buffer ≠ [] := by
    intro he
    rw [he] at hs
    simp at hs
  unfold process_batch
  cases hbuf : st.buffer with
  | nil => exact absurd hbuf hb
  | cons x xs =>
    rw [hbuf] at hs
    rw [hs]

/-- Method `process_batch` never panics: the sorted buffer stays non-empty
and both interval lists handed to `combine_intervals` are non-empty. -/
theorem process_batch_isSome (st : HeartbeatTransState) :
    ∃ st2, process_batch st = some st2 := by
  cases hbuf : st.buffer with
  | nil =>
    refine ⟨st, ?_⟩
    unfold process_batch
    rw [hbuf]
  | cons x xs =>
    cases hsort : List.insertionSort (· ≤ ·) st.buffer with
    | nil =>
      have := (List.perm_insertionSort (· ≤ ·) st.buffer).length_eq
      rw [hsort, hbuf] at this
      simp at this
    | cons f rest =>
      rw [process_batch_eq hsort]
      split_ifs with hlv
      · exact ⟨_, rfl⟩
      · obtain ⟨C, hC⟩ := combine_intervals_isSome hlv
          (buildIntervals_ne_nil st.interval_len f (f + st.interval_len) (f :: rest))
        rw [hC]
        exact ⟨_, rfl⟩

/-- Method `process_batch` preserves well-formedness, leaves the window and
liveness length unchanged, and clears the buffer. -/
theorem process_batch_WF {st st2 : HeartbeatTransState} (hwf : StateWF st)
    (h : process_batch st = some st2) :
    StateWF st2 ∧ st2.start = st.start ∧ st2.end_ = st.end_ ∧
      st2.interval_len = st.interval_len ∧ st2.buffer = [] := by
  obtain ⟨hL, hwin, hchain, hlive, hbuf⟩ := hwf
  cases hbufe : st.buffer with
  | nil =>
    unfold process_batch at h
    rw [hbufe] at h
    rw [Option.some.injEq] at h
    subst h
    exact ⟨⟨hL, hwin, hchain, hlive, hbuf⟩, rfl, rfl, rfl, hbufe⟩
  | cons x xs =>
    cases hsort : List.insertionSort (· ≤ ·) st.buffer with
    | nil =>
      have := (List.perm_insertionSort (· ≤ ·) st.buffer).length_eq
      rw [hsort, hbufe] at this
      simp at this
    | cons f rest =>
      have hmemiff : ∀ y, y ∈ f :: rest ↔ y ∈ st.buffer := by
        intro y
        rw [← hsort]
        exact (List.perm_insertionSort (· ≤ ·) st.buffer).mem_iff
      have hsorted : List.Pairwise (· ≤ ·) (f :: rest) := by
        rw [← hsort]
        exact List.sorted_insertionSort (· ≤ ·) st.buffer
      have hfmem : f ∈ st.buffer := (hmemiff f).mp (List.mem_cons_self _ _)
      have hfwin : st.start ≤ f ∧ f < st.end_ := hbuf f hfmem
      have hge : ∀ x ∈ f :: rest, f ≤ x := by
        intro y hy
        rcases List.mem_cons.mp hy with hy | hy
        · omega
        · exact (List.pairwise_cons.mp hsorted).1 y hy
      obtain ⟨hNIchain, _, _, _⟩ :=
        buildIntervals_spec st.interval_len hL (f :: rest) f (f + st.interval_len)
          (by omega) hge hsorted
      have hNIwin : ∀ p ∈ buildIntervals st.interval_len f (f + st.interval_len) (f :: rest),
          st.start ≤ p.1 ∧ p.1 < st.end_ := by
        intro p hp
        rcases buildIntervals_starts st.interval_len (f :: rest) f (f + st.interval_len) p hp
          with h1 | h1
        · rw [h1]; exact hfwin
        · exact hbuf p.1 ((hmemiff p.1).mp h1)
      rw [process_batch_eq hsort] at h
      split_ifs at h with hlv
      · rw [Option.some.injEq] at h
        subst h
        refine ⟨⟨hL, hwin, hNIchain, hNIwin, ?_⟩, rfl, rfl, rfl, rfl⟩
        intro b hb
        cases hb
      · cases hc : combine_intervals st.liveness
            (buildIntervals st.interval_len f (f + st.interval_len) (f :: rest)) with
        | none => rw [hc] at h; cases h
        | some merged =>
          rw [hc] at h
          rw [Option.some.injEq] at h
          subst h
          obtain ⟨hmc, hms⟩ := combine_intervals_spec hchain hNIchain hc
          refine ⟨⟨hL, hwin, hmc, ?_, ?_⟩, rfl, rfl, rfl, rfl⟩
          · intro p hp
            obtain ⟨q, hq, hq1⟩ := hms p hp
            rw [← hq1]
            rcases hq with hq | hq
            · exact hlive q hq
            · exact hNIwin q hq
          · intro b hb
            cases hb

/-- Method `insert` preserves well-formedness and the window fields. -/
theorem insert_WF {st st2 : HeartbeatTransState} {t : Int} (hwf : StateWF st)
    (h : insert st t = some st2) :
    StateWF st2 ∧ st2.start = st.start ∧ st2.end_ = st.end_ ∧
      st2.interval_len = st.interval_len := by
  unfold insert at h
  split_ifs at h with hwin hsize
  · cases hp : process_batch st with
    | none => rw [hp] at h; cases h
    | some s2 =>
      rw [hp] at h
      rw [Option.map_some', Option.some.injEq] at h
      subst h
      obtain ⟨⟨hL, hw, hchain, hlive, _⟩, f1, f2, f3, f4⟩ := process_batch_WF hwf hp
      refine ⟨⟨hL, hw, hchain, hlive, ?_⟩, f1, f2, f3⟩
      intro b hb
      rw [f4, List.nil_append, List.mem_singleton] at hb
      subst hb
      rw [f1, f2]
      exact hwin
  · rw [Option.some.injEq] at h
    subst h
    obtain ⟨hL, hw, hchain, hlive, hbuf⟩ := hwf
    refine ⟨⟨hL, hw, hchain, hlive, ?_⟩, rfl, rfl, rfl⟩
    intro b hb
    rcases List.mem_append.mp hb with hb | hb
    · exact hbuf b hb
    · rw [List.mem_singleton] at hb
      subst hb
      exact hwin

/-- Method `combine`, when it completes, flushes both states, merges the
other liveness into this one, and keeps this state's window fields. -/
theorem combine_spec {s1 s2 st' : HeartbeatTransState}
    (h1 : StateWF s1) (h2 : StateWF s2) (h : combine s1 s2 = some st') :
    goodChain st'.liveness ∧ st'.start = s1.start ∧ st'.end_ = s1.end_ ∧
      st'.interval_len = s1.interval_len ∧ st'.buffer = [] ∧
      (∀ p ∈ st'.liveness, s1.start ≤ p.1 ∨ s2.start ≤ p.1) := by
  unfold combine at h
  split_ifs at h with hlen
  · cases hp1 : process_batch s1 with
    | none => rw [hp1] at h; cases h
    | some p1 =>
    cases hp2 : process_batch s2 with
    | none => rw [hp1, hp2] at h; cases h
    | some p2 =>
    rw [hp1, hp2] at h
    rw [Option.some_bind, Option.some_bind] at h
    cases hc : combine_intervals p1.liveness p2.liveness with
    | none => rw [hc] at h; cases h
    | some merged =>
      rw [hc] at h
      rw [Option.map_some', Option.some.injEq] at h
      subst h
      obtain ⟨⟨_, _, hc1, hl1, _⟩, f1, f2, f3, f4⟩ := process_batch_WF h1 hp1
      obtain ⟨⟨_, _, hc2, hl2, _⟩, g1, _, _, _⟩ := process_batch_WF h2 hp2
      obtain ⟨hmc, hms⟩ := combine_intervals_spec hc1 hc2 hc
      refine ⟨hmc, f1, f2, f3, f4, ?_⟩
      intro p hp
      obtain ⟨q, hq, hq1⟩ := hms p hp
      rw [← hq1]
      rcases hq with hq | hq
      · exact Or.inl (by rw [← f1]; exact (hl1 q hq).1)
      · exact Or.inr (by rw [← g1]; exact (hl2 q hq).1)

/-- Method `combine` completes whenever the liveness lengths agree and both
flushed states have a non-empty liveness, regardless of the windows. -/
theorem combine_isSome_of_nonempty {s1 s2 p1 p2 : HeartbeatTransState}
    (hlen : s1.interval_len = s2.interval_len)
    (hp1 : process_batch s1 = some p1) (hp2 : process_batch s2 = some p2)
    (hne1 : p1.liveness ≠ []) (hne2 : p2.liveness ≠ []) :
    ∃ merged, combine s1 s2 = some { p1 with liveness := merged } ∧
      combine_intervals p1.liveness p2.liveness = some merged := by
  obtain ⟨C, hC⟩ := combine_intervals_isSome hne1 hne2
  refine ⟨C, ?_, hC⟩
  unfold combine
  rw [if_pos hlen, hp1, hp2]
  rw [Option.some_bind, Option.some_bind, hC]
  rfl

/-- Finalization produces interval arrays of equal length that again form
a chain, thanks to the window-trimming of the last end. -/
theorem heartbeat_final_WF {st : HeartbeatTransState} {agg : HeartbeatAgg}
    (hwf : StateWF st) (h : heartbeat_final st = some agg) :
    goodChain (agg.interval_starts.zip agg.interval_ends) ∧
      agg.interval_starts.length = agg.interval_ends.length := by
  unfold heartbeat_final at h
  cases hp : process_batch st with
  | none => rw [hp] at h; cases h
  | some s2 =>
  rw [hp] at h
  rw [Option.map_some', Option.some.injEq] at h
  subst h
  dsimp only
  obtain ⟨⟨_, hw, hchain, hlive, _⟩, f1, f2, _, _⟩ := process_batch_WF hwf hp
  have hzipid : (s2.liveness.map Prod.fst).zip (s2.liveness.map Prod.snd) = s2.liveness := by
    rw [List.zip_map']
    exact List.map_id'' (fun p => rfl) s2.liveness
  cases hlast : s2.liveness.getLast? with
  | none =>
    have hlv : s2.liveness = [] := by
      cases hl : s2.liveness with
      | nil => rfl
      | cons y ys =>
        rw [hl] at hlast
        simp at hlast
    rw [hlv]
    exact ⟨goodChain_nil, rfl⟩
  | some q =>
  obtain ⟨a, b⟩ := q
  have hlveq : s2.liveness = s2.liveness.dropLast ++ [(a, b)] :=
    eq_dropLast_concat_of_getLast? hlast
  have hglE : (s2.liveness.map Prod.snd).getLast? = some b := by
    conv_lhs => rw [hlveq]
    rw [List.map_append]
    exact List.getLast?_concat _
  have hE : (match (s2.liveness.map Prod.snd).getLast? with
      | some last => if last > s2.end_ then (s2.liveness.map Prod.snd).dropLast ++ [s2.end_]
                     else s2.liveness.map Prod.snd
      | none => s2.liveness.map Prod.snd) =
      if b > s2.end_ then (s2.liveness.map Prod.snd).dropLast ++ [s2.end_]
      else s2.liveness.map Prod.snd := by
    rw [hglE]
  rw [hE]
  have hlen : (s2.liveness.dropLast.map Prod.fst).length =
      (s2.liveness.dropLast.map Prod.snd).length := by
    rw [List.length_map, List.length_map]
  have hSdec : s2.liveness.map Prod.fst = s2.liveness.dropLast.map Prod.fst ++ [a] := by
    conv_lhs => rw [hlveq]
    rw [List.map_append]
    rfl
  have hEdec : s2.liveness.map Prod.snd = s2.liveness.dropLast.map Prod.snd ++ [b] := by
    conv_lhs => rw [hlveq]
    rw [List.map_append]
    rfl
  have hzip : ∀ e : Int,
      (s2.liveness.dropLast.map Prod.fst ++ [a]).zip
        (s2.liveness.dropLast.map Prod.snd ++ [e]) =
      s2.liveness.dropLast ++ [(a, e)] := by
    intro e
    rw [List.zip_append hlen]
    congr 1
    rw [List.zip_map']
    exact List.map_id'' (fun p => rfl) s2.liveness.dropLast
  obtain ⟨hcD, hab, hgapD⟩ := goodChain_append_iff.mp (hlveq ▸ hchain)
  have hawin : s2.start ≤ a ∧ a < s2.end_ :=
    hlive (a, b) (by rw [hlveq]; exact List.mem_append_right _ (List.mem_singleton.mpr rfl))
  split_ifs with hclamp
  · constructor
    · rw [hSdec, hEdec, List.dropLast_concat, hzip s2.end_, goodChain_append_iff]
      refine ⟨hcD, goodChain_singleton.mpr hawin.2, ?_⟩
      intro p hp q hq
      rw [List.head?_cons, Option.some.injEq] at hq
      subst hq
      exact hgapD p hp (a, b) rfl
    · rw [hSdec, hEdec, List.dropLast_concat]
      simp [hlen]
  · constructor
    · rw [hzipid]
      exact hchain
    · rw [List.length_map, List.length_map]

theorem runOps_append (st : HeartbeatTransState) (a b : List HbOp) :
    runOps st (a ++ b) = (runOps st a).bind fun s => runOps s b := by
  induction a generalizing st with
  | nil => rw [List.nil_append, runOps, Option.some_bind]
  | cons op rest ih =>
    cases op with
    | ins t =>
      rw [List.cons_append, runOps, runOps]
      cases insert st t with
      | none => rfl
      | some s2 =>
        rw [Option.some_bind, Option.some_bind]
        exact ih s2
    | flush =>
      rw [List.cons_append, runOps, runOps]
      cases process_batch st with
      | none => rfl
      | some s2 =>
        rw [Option.some_bind, Option.some_bind]
        exact ih s2

/-- Method `process_batch` never touches the window fields. -/
theorem process_batch_frame {st st2 : HeartbeatTransState}
    (h : process_batch st = some st2) :
    st2.start = st.start ∧ st2.end_ = st.end_ ∧ st2.interval_len = st.interval_len := by
  cases hbuf : st.buffer with
  | nil =>
    unfold process_batch at h
    rw [hbuf] at h
    rw [Option.some.injEq] at h
    subst h
    exact ⟨rfl, rfl, rfl⟩
  | cons x xs =>
    cases hsort : List.insertionSort (· ≤ ·) st.buffer with
    | nil =>
      have := (List.perm_insertionSort (· ≤ ·) st.buffer).length_eq
      rw [hsort, hbuf] at this
      simp at this
    | cons f rest =>
      rw [process_batch_eq hsort] at h
      split_ifs at h with hlv
      · rw [Option.some.injEq] at h
        subst h
        exact ⟨rfl, rfl, rfl⟩
      · cases hc : combine_intervals st.liveness
            (buildIntervals st.interval_len f (f + st.interval_len) (f :: rest)) with
        | none => rw [hc] at h; cases h
        | some merged =>
          rw [hc] at h
          rw [Option.some.injEq] at h
          subst h
          exact ⟨rfl, rfl, rfl⟩

/-- C1 counterexample: `combine_intervals` does not always produce the set
union.  On the valid chains A = [(0,20)] and B = [(5,15)] the ordered fast
path fires with overlap (0 < 5 ≤ 20) and overwrites the stored end 20 with
15, so the point 17, covered by A, is no longer covered by the result. -/
theorem C1_counterexample :
    combine_intervals [((0 : Int), (20 : Int))] [((5 : Int), (15 : Int))] =
        some [((0 : Int), (15 : Int))] ∧
      goodChain [((0 : Int), (20 : Int))] ∧ goodChain [((5 : Int), (15 : Int))] ∧
      covered [((0 : Int), (20 : Int))] 17 ∧ ¬ covered [((0 : Int), (15 : Int))] 17 := by
  decide

/-- C1 (amended): for two sorted non-overlapping non-adjacent non-empty
interval sequences A and B, `combine_intervals` replaces the liveness with a
sorted non-overlapping sequence covering exactly the union of the points of
A and B, provided that whenever the ordered fast path fires with overlap
(last start of A below first start of B, last end of A at or above first
start of B) the first interval of B ends at or after the last end of A —
the pre-extension condition the spec requires of callers. -/
theorem C1_combine_intervals_union (A B : List (Int × Int))
    (hA : goodChain A) (hB : goodChain B) (hAne : A ≠ []) (hBne : B ≠ [])
    (hmono : ∀ la, A.getLast? = some la → ∀ b0, B.head? = some b0 →
      la.1 < b0.1 → b0.1 ≤ la.2 → la.2 ≤ b0.2) :
    ∃ C, combine_intervals A B = some C ∧ goodChain C ∧
      ∀ t, covered C t ↔ covered A t ∨ covered B t := by
  obtain ⟨C, hC⟩ := combine_intervals_isSome hAne hBne
  exact ⟨C, hC, (combine_intervals_spec hA hB hC).1,
    combine_intervals_union hA hB hmono hC⟩

/-- Witness for C1 at the concrete chains [(0,10)] and [(20,30)], where the
fast path fires without overlap. -/
theorem C1_witness :
    ∃ C, combine_intervals [((0 : Int), (10 : Int))] [((20 : Int), (30 : Int))] = some C ∧
      goodChain C ∧
      ∀ t, covered C t ↔
        covered [((0 : Int), (10 : Int))] t ∨ covered [((20 : Int), (30 : Int))] t := by
  refine C1_combine_intervals_union _ _ (by decide) (by decide) (by decide) (by decide) ?_
  intro la hla b0 hb0 h1 h2
  simp only [List.getLast?_singleton, Option.some.injEq] at hla
  simp only [List.head?_cons, Option.some.injEq] at hb0
  subst hla
  subst hb0
  simp at h2

/-- C2: the code violates this claim.  From the reachable state with
liveness [(0,20)] (heartbeats 0 and 10 with L = 10, window [0,500)),
flushing a batch holding the single heartbeat 5 takes the ordered fast
track with overlap (0 < 5 and 20 ≥ 5) and unconditionally overwrites the
stored last end 20 with the new first end 15, decreasing it. -/
theorem C2_failing_run :
    (runOps (new 0 500 10) [HbOp.ins 0, HbOp.ins 10, HbOp.flush]).map
        HeartbeatTransState.liveness = some [(0, 20)] ∧
      (runOps (new 0 500 10) [HbOp.ins 0, HbOp.ins 10, HbOp.flush, HbOp.ins 5, HbOp.flush]).map
        HeartbeatTransState.liveness = some [(0, 15)] ∧
      combine_intervals [((0 : Int), (20 : Int))] [((5 : Int), (15 : Int))] =
        some [((0 : Int), (15 : Int))] := by
  decide

/-- C3: the code violates batching transparency.  Inserting the heartbeats
0, 10, 5 (window [0,500), L = 10) with a single flush at finalization gives
the interval end array [20], while flushing once between the second and
third insert gives [15]. -/
theorem C3_failing_run :
    (runOps (new 0 500 10) [HbOp.ins 0, HbOp.ins 10, HbOp.ins 5]).bind heartbeat_final =
        some ⟨0, 500, 10, [0], [20]⟩ ∧
      (runOps (new 0 500 10) [HbOp.ins 0, HbOp.ins 10, HbOp.flush, HbOp.ins 5]).bind
          heartbeat_final = some ⟨0, 500, 10, [0], [15]⟩ ∧
      ([(20 : Int)] ≠ [(15 : Int)]) := by
  decide

/-- C4: the code violates commutativity.  The permutations 0,10,5 and
0,5,10 of the same heartbeat multiset, inserted with the identical flush
discipline (one flush after the first two inserts), finalize to different
end arrays: [15] versus [20]. -/
theorem C4_failing_run :
    (runOps (new 0 500 10) [HbOp.ins 0, HbOp.ins 10, HbOp.flush, HbOp.ins 5]).bind
        heartbeat_final = some ⟨0, 500, 10, [0], [15]⟩ ∧
      (runOps (new 0 500 10) [HbOp.ins 0, HbOp.ins 5, HbOp.flush, HbOp.ins 10]).bind
        heartbeat_final = some ⟨0, 500, 10, [0], [20]⟩ ∧
      ([(15 : Int)] ≠ [(20 : Int)]) := by
  decide

/-- C5: every public operation that completes on a well-formed state leaves
the liveness list — and, for finalization, the S and E arrays — sorted with
strictly increasing starts, non-empty intervals (S < E pointwise) and a
strict gap between consecutive intervals (E before the next S), which is
exactly `goodChain`.  Insert and flush moreover preserve full
well-formedness. -/
theorem C5_invariants :
    (∀ st t st2, StateWF st → insert st t = some st2 →
      StateWF st2 ∧ goodChain st2.liveness) ∧
    (∀ st st2, StateWF st → process_batch st = some st2 →
      StateWF st2 ∧ goodChain st2.liveness) ∧
    (∀ s1 s2 st2, StateWF s1 → StateWF s2 → combine s1 s2 = some st2 →
      goodChain st2.liveness) ∧
    (∀ st agg, StateWF st → heartbeat_final st = some agg →
      goodChain (agg.interval_starts.zip agg.interval_ends)) := by
  refine ⟨?_, ?_, ?_, ?_⟩
  · intro st t st2 hwf h
    have := insert_WF hwf h
    exact ⟨this.1, this.1.2.2.1⟩
  · intro st st2 hwf h
    have := process_batch_WF hwf h
    exact ⟨this.1, this.1.2.2.1⟩
  · intro s1 s2 st2 h1 h2 h
    exact (combine_spec h1 h2 h).1
  · intro st agg hwf h
    exact (heartbeat_final_WF hwf h).1

/-- Witness for C5: flushing a concrete well-formed state yields a
well-formed state with chain liveness. -/
theorem C5_witness :
    StateWF ⟨0, 500, 10, [], [(0, 15)]⟩ ∧
      goodChain (HeartbeatTransState.liveness ⟨0, 500, 10, [], [(0, 15)]⟩) :=
  C5_invariants.2.1 ⟨0, 500, 10, [5, 0], []⟩ ⟨0, 500, 10, [], [(0, 15)]⟩
    (by decide) (by decide)

/-- C6: the three concrete scenarios of the spec with window [0,500) and
L = 10, matching the unit test of the source: the first batch of heartbeats
gives four intervals, the ordered second batch appends two more, and the
third batch exercises the general merge path, producing the six expected
intervals. -/
theorem C6_concrete_scenarios :
    (runOps (new 0 500 10) [HbOp.ins 100, HbOp.ins 200, HbOp.ins 250, HbOp.ins 220,
        HbOp.ins 210, HbOp.ins 300, HbOp.flush]).map HeartbeatTransState.liveness =
      some [(100, 110), (200, 230), (250, 260), (300, 310)] ∧
    (runOps (new 0 500 10) [HbOp.ins 100, HbOp.ins 200, HbOp.ins 250, HbOp.ins 220,
        HbOp.ins 210, HbOp.ins 300, HbOp.flush, HbOp.ins 400, HbOp.ins 350,
        HbOp.flush]).map HeartbeatTransState.liveness =
      some [(100, 110), (200, 230), (250, 260), (300, 310), (350, 360), (400, 410)] ∧
    (runOps (new 0 500 10) [HbOp.ins 100, HbOp.ins 200, HbOp.ins 250, HbOp.ins 220,
        HbOp.ins 210, HbOp.ins 300, HbOp.flush, HbOp.ins 400, HbOp.ins 350, HbOp.flush,
        HbOp.ins 80, HbOp.ins 190, HbOp.ins 210, HbOp.ins 230, HbOp.ins 240, HbOp.ins 310,
        HbOp.ins 395, HbOp.ins 408, HbOp.flush]).map HeartbeatTransState.liveness =
      some [(80, 90), (100, 110), (190, 260), (300, 320), (350, 360), (395, 418)] := by
  refine ⟨by decide, by decide, ?_⟩
  have h12 : runOps (new 0 500 10) [HbOp.ins 100, HbOp.ins 200, HbOp.ins 250, HbOp.ins 220,
      HbOp.ins 210, HbOp.ins 300, HbOp.flush, HbOp.ins 400, HbOp.ins 350, HbOp.flush] =
      some ⟨0, 500, 10, [],
        [(100, 110), (200, 230), (250, 260), (300, 310), (350, 360), (400, 410)]⟩ := by
    decide
  have h3i : runOps (⟨0, 500, 10, [],
      [(100, 110), (200, 230), (250, 260), (300, 310), (350, 360), (400, 410)]⟩ :
        HeartbeatTransState)
      [HbOp.ins 80, HbOp.ins 190, HbOp.ins 210, HbOp.ins 230, HbOp.ins 240, HbOp.ins 310,
        HbOp.ins 395, HbOp.ins 408] =
      some ⟨0, 500, 10, [80, 190, 210, 230, 240, 310, 395, 408],
        [(100, 110), (200, 230), (250, 260), (300, 310), (350, 360), (400, 410)]⟩ := by
    decide
  have h3f : process_batch (⟨0, 500, 10, [80, 190, 210, 230, 240, 310, 395, 408],
      [(100, 110), (200, 230), (250, 260), (300, 310), (350, 360), (400, 410)]⟩ :
        HeartbeatTransState) =
      some ⟨0, 500, 10, [],
        [(80, 90), (100, 110), (190, 260), (300, 320), (350, 360), (395, 418)]⟩ := by
    simp [process_batch, combine_intervals, mergeLists, absorb, buildIntervals]
  have hsplit : ([HbOp.ins 100, HbOp.ins 200, HbOp.ins 250, HbOp.ins 220,
      HbOp.ins 210, HbOp.ins 300, HbOp.flush, HbOp.ins 400, HbOp.ins 350, HbOp.flush,
      HbOp.ins 80, HbOp.ins 190, HbOp.ins 210, HbOp.ins 230, HbOp.ins 240, HbOp.ins 310,
      HbOp.ins 395, HbOp.ins 408, HbOp.flush] : List HbOp) =
      [HbOp.ins 100, HbOp.ins 200, HbOp.ins 250, HbOp.ins 220,
        HbOp.ins 210, HbOp.ins 300, HbOp.flush, HbOp.ins 400, HbOp.ins 350, HbOp.flush] ++
      ([HbOp.ins 80, HbOp.ins 190, HbOp.ins 210, HbOp.ins 230, HbOp.ins 240, HbOp.ins 310,
        HbOp.ins 395, HbOp.ins 408] ++ [HbOp.flush]) := rfl
  rw [hsplit, runOps_append, h12, Option.some_bind, runOps_append, h3i, Option.some_bind,
    runOps, h3f, Option.some_bind, runOps]
  rfl

/-- Scan loop of `live_at` on a chain answers exactly coverage: the loop
locates the unique interval whose start bracket contains the probe and
compares against its end. -/
theorem liveScan_iff {l : List (Int × Int)} (h : goodChain l) (t : Int) :
    liveScan t l = true ↔ covered l t := by
  induction l with
  | nil => simp [liveScan, covered]
  | cons p rest ih =>
    obtain ⟨s, e⟩ := p
    rw [liveScan.eq_def]
    dsimp only
    split_ifs with hts
    · simp only [Bool.false_eq_true, false_iff]
      intro hc
      have := covered_head_le h hc
      omega
    · cases rest with
      | nil =>
        dsimp only
        simp only [decide_eq_true_eq]
        rw [covered_singleton]
        constructor
        · intro he
          exact ⟨by omega, he⟩
        · rintro ⟨_, he⟩
          exact he
      | cons q rr =>
        obtain ⟨s2, e2⟩ := q
        dsimp only
        split_ifs with hts2
        · simp only [decide_eq_true_eq]
          rw [covered_cons]
          constructor
          · intro he
            exact Or.inl ⟨by omega, he⟩
          · rintro (⟨_, he⟩ | hc)
            · exact he
            · have := covered_head_le (goodChain_tail h) hc
              omega
        · rw [ih (goodChain_tail h)]
          constructor
          · intro hc
            exact covered_cons.mpr (Or.inr hc)
          · intro hc
            rcases covered_cons.mp hc with ⟨h1, h2⟩ | hc2
            · have hgap : e < s2 := h.2.1
              omega
            · exact hc2

/-- C7: on a finalized aggregate whose interval arrays form a chain,
`live_at` returns `true` exactly when the probe lies in one of the stored
half-open intervals — start inclusive, end exclusive; in particular it is
`false` with zero intervals, before the first start, and at an interval's
end that lies in no later interval. -/
theorem C7_live_at_iff (agg : HeartbeatAgg)
    (hchain : goodChain (agg.interval_starts.zip agg.interval_ends)) :
    ∀ t : Int, live_at agg t = true ↔
      ∃ p ∈ agg.interval_starts.zip agg.interval_ends, p.1 ≤ t ∧ t < p.2 := by
  intro t
  unfold live_at
  split_ifs with hlen
  · have hnil : agg.interval_starts = [] := List.length_eq_zero.mp hlen
    simp [hnil]
  · exact liveScan_iff hchain t

/-- Witness for C7 on a concrete two-interval aggregate. -/
theorem C7_witness :
    live_at ⟨0, 100, 10, [0, 20], [10, 30]⟩ 25 = true ↔
      ∃ p ∈ (HeartbeatAgg.interval_starts ⟨0, 100, 10, [0, 20], [10, 30]⟩).zip
          (HeartbeatAgg.interval_ends ⟨0, 100, 10, [0, 20], [10, 30]⟩),
        p.1 ≤ 25 ∧ 25 < p.2 :=
  C7_live_at_iff ⟨0, 100, 10, [0, 20], [10, 30]⟩ (by decide) 25

/-- C9 counterexample: `combine` panics (modelled as `none`) when either
state's liveness is empty after its buffer is flushed, even with equal
liveness lengths — the `unwrap` calls of `combine_intervals` fail. -/
theorem C9_counterexample :
    combine (new 0 500 10) ⟨0, 500, 10, [], [(100, 110)]⟩ = none ∧
      combine ⟨0, 500, 10, [], [(100, 110)]⟩ (new 0 500 10) = none := by
  decide

/-- C9 (amended): for two states with equal liveness lengths whose flushed
liveness sequences are both non-empty, `combine` completes without
panicking. -/
theorem C9_combine_nonempty (s1 s2 p1 p2 : HeartbeatTransState)
    (hlen : s1.interval_len = s2.interval_len)
    (hp1 : process_batch s1 = some p1) (hp2 : process_batch s2 = some p2)
    (hne1 : p1.liveness ≠ []) (hne2 : p2.liveness ≠ []) :
    ∃ st2, combine s1 s2 = some st2 := by
  obtain ⟨m, hm, _⟩ := combine_isSome_of_nonempty hlen hp1 hp2 hne1 hne2
  exact ⟨_, hm⟩

/-- Witness for C9 at two concrete states with non-empty liveness. -/
theorem C9_witness :
    ∃ st2, combine ⟨0, 500, 10, [], [(0, 10)]⟩ ⟨0, 500, 10, [], [(50, 60)]⟩ = some st2 :=
  C9_combine_nonempty ⟨0, 500, 10, [], [(0, 10)]⟩ ⟨0, 500, 10, [], [(50, 60)]⟩
    ⟨0, 500, 10, [], [(0, 10)]⟩ ⟨0, 500, 10, [], [(50, 60)]⟩
    (by decide) (by decide) (by decide) (by decide) (by decide)

/-- C10: `combine` performs no window-compatibility check at all — the only
assertion compares the liveness lengths — and the combined state keeps this
state's `start`, `end` and `interval_len`, silently discarding the other
state's window bounds.  The windows of the two states are unconstrained. -/
theorem C10_combine_ignores_windows (s1 s2 p1 p2 : HeartbeatTransState)
    (hlen : s1.interval_len = s2.interval_len)
    (hp1 : process_batch s1 = some p1) (hp2 : process_batch s2 = some p2)
    (hne1 : p1.liveness ≠ []) (hne2 : p2.liveness ≠ []) :
    ∃ st2, combine s1 s2 = some st2 ∧ st2.start = s1.start ∧ st2.end_ = s1.end_ ∧
      st2.interval_len = s1.interval_len := by
  obtain ⟨m, hm, _⟩ := combine_isSome_of_nonempty hlen hp1 hp2 hne1 hne2
  obtain ⟨f1, f2, f3⟩ := process_batch_frame hp1
  exact ⟨_, hm, f1, f2, f3⟩

/-- Witness for C10 at two concrete states whose windows [0,100) and
[200,300) differ. -/
theorem C10_witness :
    ∃ st2, combine ⟨0, 100, 7, [], [(10, 20)]⟩ ⟨200, 300, 7, [], [(250, 260)]⟩ = some st2 ∧
      st2.start = 0 ∧ st2.end_ = 100 ∧ st2.interval_len = 7 :=
  C10_combine_ignores_windows ⟨0, 100, 7, [], [(10, 20)]⟩ ⟨200, 300, 7, [], [(250, 260)]⟩
    ⟨0, 100, 7, [], [(10, 20)]⟩ ⟨200, 300, 7, [], [(250, 260)]⟩
    (by decide) (by decide) (by decide) (by decide) (by decide)

/-- Shape of the dead ranges strictly between the live intervals: one gap
between each pair of consecutive intervals.  This is what `dead_ranges`
computes by re-zipping the interval arrays when the aggregate is live both
at the window start and at the window end. -/
def midGaps : List (Int × Int) → List (Int × Int)
  | p :: q :: rest => (p.2, q.1) :: midGaps (q :: rest)
  | _ => []

/-- Shape of the dead ranges between the live intervals plus a trailing gap
up to `X`: what `dead_ranges` computes when the aggregate is dead at the
window end. -/
def tailGaps (X : Int) : List (Int × Int) → List (Int × Int)
  | [] => []
  | [p] => [(p.2, X)]
  | p :: q :: rest => (p.2, q.1) :: tailGaps X (q :: rest)

theorem zip_tail_concat_eq_tailGaps (X : Int) :
    ∀ (S E : List Int), S.length = E.length → S ≠ [] →
      E.zip (S.tail ++ [X]) = tailGaps X (S.zip E) := by
  intro S
  induction S with
  | nil => intro E _ hne; exact absurd rfl hne
  | cons s0 S' ih =>
    intro E hlen _
    cases E with
    | nil => simp at hlen
    | cons e0 E' =>
      cases S' with
      | nil =>
        cases E' with
        | nil => rfl
        | cons e1 E'' => simp at hlen
      | cons s1 S'' =>
        cases E' with
        | nil => simp at hlen
        | cons e1 E'' =>
          have hlen' : (s1 :: S'').length = (e1 :: E'').length := by
            simp at hlen
            simp [hlen]
          have := ih (e1 :: E'') hlen' (by simp)
          simp only [List.zip_cons_cons, List.tail_cons, List.cons_append] at *
          rw [this]
          rfl

theorem zip_dropLast_tail_eq_midGaps :
    ∀ (S E : List Int), S.length = E.length →
      E.dropLast.zip S.tail = midGaps (S.zip E) := by
  intro S
  induction S with
  | nil =>
    intro E hlen
    cases E with
    | nil => rfl
    | cons e0 E' => simp at hlen
  | cons s0 S' ih =>
    intro E hlen
    cases E with
    | nil => simp at hlen
    | cons e0 E' =>
      cases S' with
      | nil =>
        cases E' with
        | nil => rfl
        | cons e1 E'' => simp at hlen
      | cons s1 S'' =>
        cases E' with
        | nil => simp at hlen
        | cons e1 E'' =>
          have hlen' : (s1 :: S'').length = (e1 :: E'').length := by
            simp at hlen
            simp [hlen]
          have := ih (e1 :: E'') hlen'
          simp only [List.zip_cons_cons, List.tail_cons] at *
          rw [List.dropLast_cons₂, List.zip_cons_cons, this]
          rfl

theorem zip_getLast? :
    ∀ (S E : List Int), S.length = E.length → ∀ s e,
      S.getLast? = some s → E.getLast? = some e →
      (S.zip E).getLast? = some (s, e) := by
  intro S
  induction S with
  | nil => intro E _ s e hs _; simp at hs
  | cons s0 S' ih =>
    intro E hlen s e hs he
    cases E with
    | nil => simp at hlen
    | cons e0 E' =>
      cases S' with
      | nil =>
        cases E' with
        | nil =>
          simp at hs he
          subst hs
          subst he
          rfl
        | cons e1 E'' => simp at hlen
      | cons s1 S'' =>
        cases E' with
        | nil => simp at hlen
        | cons e1 E'' =>
          have hlen' : (s1 :: S'').length = (e1 :: E'').length := by
            simp at hlen
            simp [hlen]
          rw [List.getLast?_cons_cons] at hs he
          have := ih (e1 :: E'') hlen' s e hs he
          rw [List.zip_cons_cons, List.zip_cons_cons]
          rw [List.getLast?_cons_cons]
          rw [List.zip_cons_cons] at this
          exact this

/-- Points covered by a chain lie strictly before its last end. -/
theorem covered_lt_lastEnd {l : List (Int × Int)} {q : Int × Int}
    (h : goodChain l) (hq : l.getLast? = some q) :
    ∀ t, covered l t → t < q.2 := by
  induction l with
  | nil => intro t hc; exact absurd hc (covered_nil t)
  | cons p rest ih =>
    intro t hc
    cases rest with
    | nil =>
      rw [List.getLast?_singleton, Option.some.injEq] at hq
      subst hq
      rcases covered_singleton.mp hc with ⟨_, h2⟩
      exact h2
    | cons p2 rr =>
      rw [List.getLast?_cons_cons] at hq
      have hq2 : p2.1 < q.2 :=
        ih (goodChain_tail h) hq p2.1
          ⟨p2, List.mem_cons_self _ _, le_refl _, goodChain_head_lt (goodChain_tail h)⟩
      rcases covered_cons.mp hc with ⟨_, h2⟩ | hc2
      · have : p.2 < p2.1 := h.2.1
        omega
      · exact ih (goodChain_tail h) hq t hc2

theorem tailGaps_nil (X : Int) : tailGaps X [] = [] := rfl

theorem tailGaps_singleton (X : Int) (p : Int × Int) : tailGaps X [p] = [(p.2, X)] := rfl

theorem tailGaps_cons_cons (X : Int) (p q : Int × Int) (rest : List (Int × Int)) :
    tailGaps X (p :: q :: rest) = (p.2, q.1) :: tailGaps X (q :: rest) := rfl

theorem midGaps_nil : midGaps [] = [] := rfl

theorem midGaps_singleton (p : Int × Int) : midGaps [p] = [] := rfl

theorem midGaps_cons_cons (p q : Int × Int) (rest : List (Int × Int)) :
    midGaps (p :: q :: rest) = (p.2, q.1) :: midGaps (q :: rest) := rfl

theorem tailGaps_cons_shape (X : Int) (q : Int × Int) (rest : List (Int × Int)) :
    ∃ z zs, tailGaps X (q :: rest) = (q.2, z) :: zs := by
  cases rest with
  | nil => exact ⟨X, [], rfl⟩
  | cons r rr => exact ⟨r.1, tailGaps X (r :: rr), rfl⟩

theorem tailGaps_start_ge (X : Int) {q : Int × Int} {rest : List (Int × Int)}
    (h : goodChain (q :: rest)) : ∀ p ∈ tailGaps X (q :: rest), q.2 ≤ p.1 := by
  induction rest generalizing q with
  | nil =>
    intro p hp
    rw [tailGaps_singleton, List.mem_singleton] at hp
    subst hp
    exact le_refl _
  | cons r rr ih =>
    intro p hp
    rw [tailGaps_cons_cons] at hp
    rcases List.mem_cons.mp hp with hp | hp
    · subst hp
      exact le_refl _
    · have h1 : r.2 ≤ p.1 := ih (goodChain_tail h) p hp
      have h2 : q.2 < r.1 := h.2.1
      have h3 : r.1 < r.2 := goodChain_head_lt (goodChain_tail h)
      omega

theorem midGaps_start_ge {q : Int × Int} {rest : List (Int × Int)}
    (h : goodChain (q :: rest)) : ∀ p ∈ midGaps (q :: rest), q.2 ≤ p.1 := by
  induction rest generalizing q with
  | nil => intro p hp; cases hp
  | cons r rr ih =>
    intro p hp
    rw [midGaps_cons_cons] at hp
    rcases List.mem_cons.mp hp with hp | hp
    · subst hp
      exact le_refl _
    · have h1 : r.2 ≤ p.1 := ih (goodChain_tail h) p hp
      have h2 : q.2 < r.1 := h.2.1
      have h3 : r.1 < r.2 := goodChain_head_lt (goodChain_tail h)
      omega

theorem tailGaps_chain (X : Int) :
    ∀ l, goodChain l → (∀ q, l.getLast? = some q → q.2 < X) →
      goodChain (tailGaps X l) := by
  intro l
  induction l with
  | nil => intro _ _; trivial
  | cons p rest ih =>
    intro h hlast
    cases rest with
    | nil =>
      have : p.2 < X := hlast p (List.getLast?_singleton p)
      rw [tailGaps_singleton]
      exact goodChain_singleton.mpr this
    | cons q rr =>
      rw [tailGaps_cons_cons]
      refine goodChain_cons h.2.1 ?_ ?_
      · intro r hr
        obtain ⟨z, zs, hz⟩ := tailGaps_cons_shape X q rr
        rw [hz, List.head?_cons, Option.some.injEq] at hr
        subst hr
        exact goodChain_head_lt (goodChain_tail h)
      · refine ih (goodChain_tail h) ?_
        intro r hr
        refine hlast r ?_
        rw [List.getLast?_cons_cons]
        exact hr

theorem midGaps_chain : ∀ l, goodChain l → goodChain (midGaps l) := by
  intro l
  induction l with
  | nil => intro _; trivial
  | cons p rest ih =>
    intro h
    cases rest with
    | nil => trivial
    | cons q rr =>
      rw [midGaps_cons_cons]
      refine goodChain_cons h.2.1 ?_ (ih (goodChain_tail h))
      intro r hr
      cases rr with
      | nil => cases hr
      | cons r2 rr2 =>
        rw [midGaps_cons_cons, List.head?_cons, Option.some.injEq] at hr
        subst hr
        exact goodChain_head_lt (goodChain_tail h)

theorem tailGaps_cover (X : Int) :
    ∀ (l : List (Int × Int)) (p : Int × Int), goodChain (p :: l) →
      (∀ q, (p :: l).getLast? = some q → q.2 ≤ X) →
      ∀ t, (covered (tailGaps X (p :: l)) t ∨ covered (p :: l) t) ↔
        (p.1 ≤ t ∧ t < X) := by
  intro l
  induction l with
  | nil =>
    intro p h hlast t
    have h1 : p.1 < p.2 := goodChain_head_lt h
    have h2 : p.2 ≤ X := hlast p (List.getLast?_singleton p)
    rw [tailGaps_singleton, covered_singleton, covered_singleton]
    omega
  | cons q rest ih =>
    intro p h hlast t
    have hlast' : ∀ r, (q :: rest).getLast? = some r → r.2 ≤ X := by
      intro r hr
      refine hlast r ?_
      rw [List.getLast?_cons_cons]
      exact hr
    have hih := ih q (goodChain_tail h) hlast'
    have hq1X : q.1 < X := by
      refine ((hih q.1).mp (Or.inr ⟨q, List.mem_cons_self _ _, le_refl _,
        goodChain_head_lt (goodChain_tail h)⟩)).2
    have hp12 : p.1 < p.2 := goodChain_head_lt h
    have hgap : p.2 < q.1 := h.2.1
    rw [tailGaps_cons_cons, covered_cons (p := (p.2, q.1)), covered_cons (p := p)]
    constructor
    · rintro ((hh | hc) | (hh | hc))
      · omega
      · have := (hih t).mp (Or.inl hc)
        omega
      · omega
      · have := (hih t).mp (Or.inr hc)
        omega
    · rintro ⟨h1, h2⟩
      by_cases hb1 : t < p.2
      · exact Or.inr (Or.inl ⟨h1, hb1⟩)
      · by_cases hb2 : t < q.1
        · exact Or.inl (Or.inl ⟨by omega, hb2⟩)
        · rcases (hih t).mpr ⟨by omega, h2⟩ with hc | hc
          · exact Or.inl (Or.inr hc)
          · exact Or.inr (Or.inr hc)

theorem midGaps_cover :
    ∀ (l : List (Int × Int)) (p qlast : Int × Int), goodChain (p :: l) →
      (p :: l).getLast? = some qlast →
      ∀ t, (covered (midGaps (p :: l)) t ∨ covered (p :: l) t) ↔
        (p.1 ≤ t ∧ t < qlast.2) := by
  intro l
  induction l with
  | nil =>
    intro p qlast h hlast t
    rw [List.getLast?_singleton, Option.some.injEq] at hlast
    subst hlast
    have h1 : p.1 < p.2 := goodChain_head_lt h
    rw [covered_singleton]
    constructor
    · rintro (hc | hc)
      · exact absurd hc (covered_nil t)
      · exact hc
    · intro hc
      exact Or.inr hc
  | cons q rest ih =>
    intro p qlast h hlast t
    rw [List.getLast?_cons_cons] at hlast
    have hih := ih q qlast (goodChain_tail h) hlast
    have hq1X : q.1 < qlast.2 := by
      refine ((hih q.1).mp (Or.inr ⟨q, List.mem_cons_self _ _, le_refl _,
        goodChain_head_lt (goodChain_tail h)⟩)).2
    have hp12 : p.1 < p.2 := goodChain_head_lt h
    have hgap : p.2 < q.1 := h.2.1
    rw [midGaps_cons_cons, covered_cons (p := (p.2, q.1)), covered_cons (p := p)]
    constructor
    · rintro ((hh | hc) | (hh | hc))
      · omega
      · have := (hih t).mp (Or.inl hc)
        omega
      · omega
      · have := (hih t).mp (Or.inr hc)
        omega
    · rintro ⟨h1, h2⟩
      by_cases hb1 : t < p.2
      · exact Or.inr (Or.inl ⟨h1, hb1⟩)
      · by_cases hb2 : t < q.1
        · exact Or.inl (Or.inl ⟨by omega, hb2⟩)
        · rcases (hih t).mpr ⟨by omega, h2⟩ with hc | hc
          · exact Or.inl (Or.inr hc)
          · exact Or.inr (Or.inr hc)

theorem tailGaps_disjoint (X : Int) :
    ∀ l, goodChain l → ∀ t, covered (tailGaps X l) t → ¬ covered l t := by
  intro l
  induction l with
  | nil => intro _ t _ hc; exact covered_nil t hc
  | cons p rest ih =>
    intro h t hg hc
    cases rest with
    | nil =>
      rcases covered_singleton.mp hg with ⟨h1, _⟩
      rcases covered_singleton.mp hc with ⟨_, h2⟩
      omega
    | cons q rr =>
      rcases covered_cons.mp hg with ⟨h1, h2⟩ | hg2
      · rcases covered_cons.mp hc with ⟨_, h3⟩ | hc2
        · omega
        · have := covered_head_le (goodChain_tail h) hc2
          omega
      · have hge : q.2 ≤ t := by
          rcases hg2 with ⟨g, hgm, hg1, _⟩
          have := tailGaps_start_ge X (goodChain_tail h) g hgm
          omega
        rcases covered_cons.mp hc with ⟨_, h3⟩ | hc2
        · have h4 : p.2 < q.1 := h.2.1
          have h5 : q.1 < q.2 := goodChain_head_lt (goodChain_tail h)
          omega
        · exact ih (goodChain_tail h) t hg2 hc2

theorem midGaps_disjoint :
    ∀ l, goodChain l → ∀ t, covered (midGaps l) t → ¬ covered l t := by
  intro l
  induction l with
  | nil => intro _ t _ hc; exact covered_nil t hc
  | cons p rest ih =>
    intro h t hg hc
    cases rest with
    | nil => exact covered_nil t hg
    | cons q rr =>
      rcases covered_cons.mp hg with ⟨h1, h2⟩ | hg2
      · rcases covered_cons.mp hc with ⟨_, h3⟩ | hc2
        · omega
        · have := covered_head_le (goodChain_tail h) hc2
          omega
      · have hge : q.2 ≤ t := by
          rcases hg2 with ⟨g, hgm, hg1, _⟩
          have := midGaps_start_ge (goodChain_tail h) g hgm
          omega
        rcases covered_cons.mp hc with ⟨_, h3⟩ | hc2
        · have h4 : p.2 < q.1 := h.2.1
          have h5 : q.1 < q.2 := goodChain_head_lt (goodChain_tail h)
          omega
        · exact ih (goodChain_tail h) t hg2 hc2

/-- C8: on a finalized aggregate whose intervals form a chain inside the
window (first start at or after the window start, last end at or before the
window end), the intervals of `dead_ranges` and `live_ranges` together tile
the window: both lists are chains (sorted, non-empty intervals only, no
zero-length stubs), no point is both dead and live, a point is dead or live
exactly when it lies in the half-open window, and with zero intervals
`dead_ranges` is the single interval (start, end). -/
theorem C8_dead_live_tiling (agg : HeartbeatAgg)
    (hlen : agg.interval_starts.length = agg.interval_ends.length)
    (hchain : goodChain (agg.interval_starts.zip agg.interval_ends))
    (hwin : agg.start_time < agg.end_time)
    (hfirst : ∀ s0, agg.interval_starts.head? = some s0 → agg.start_time ≤ s0)
    (hlast : ∀ en, agg.interval_ends.getLast? = some en → en ≤ agg.end_time) :
    goodChain (dead_ranges agg) ∧ goodChain (live_ranges agg) ∧
      (∀ t, ¬ (covered (dead_ranges agg) t ∧ covered (live_ranges agg) t)) ∧
      (∀ t, (agg.start_time ≤ t ∧ t < agg.end_time) ↔
        (covered (dead_ranges agg) t ∨ covered (live_ranges agg) t)) ∧
      (agg.interval_starts = [] → dead_ranges agg = [(agg.start_time, agg.end_time)]) := by
  obtain ⟨a, b, L, S, E⟩ := agg
  dsimp only at hlen hchain hwin hfirst hlast ⊢
  unfold dead_ranges live_ranges
  dsimp only
  cases S with
  | nil =>
    have hE : E = [] := by
      rw [List.length_nil] at hlen
      exact List.length_eq_zero.mp hlen.symm
    subst hE
    rw [if_pos (show ([] : List Int).length = 0 from rfl)]
    refine ⟨goodChain_singleton.mpr hwin, trivial, ?_, ?_, fun _ => rfl⟩
    · rintro t ⟨_, hc⟩
      exact covered_nil t hc
    · intro t
      rw [covered_singleton]
      constructor
      · exact Or.inl
      · rintro (h | h)
        · exact h
        · exact absurd h (covered_nil t)
  | cons s0 S' =>
  cases E with
  | nil => simp at hlen
  | cons e0 E' =>
  have hlen' : S'.length = E'.length := by
    simp at hlen
    exact hlen
  rw [List.zip_cons_cons] at hchain ⊢
  have hs0e0 : s0 < e0 := goodChain_head_lt hchain
  obtain ⟨sn, hsn⟩ := Option.isSome_iff_exists.mp
    (List.getLast?_isSome.mpr (List.cons_ne_nil s0 S'))
  obtain ⟨en, hen⟩ := Option.isSome_iff_exists.mp
    (List.getLast?_isSome.mpr (List.cons_ne_nil e0 E'))
  have hlzip : (((s0, e0) :: S'.zip E').getLast?) = some (sn, en) := by
    have := zip_getLast? (s0 :: S') (e0 :: E') hlen sn en hsn hen
    rw [List.zip_cons_cons] at this
    exact this
  have henb : en ≤ b := hlast en hen
  have has0 : a ≤ s0 := hfirst s0 rfl
  have hs0en : s0 < en :=
    covered_lt_lastEnd hchain hlzip s0 ⟨(s0, e0), List.mem_cons_self _ _, le_refl _, hs0e0⟩
  have hlen0 : ¬ (s0 :: S').length = 0 := by simp
  rw [if_neg hlen0]
  have hcov_last : ∀ q, (((s0, e0) :: S'.zip E').getLast? = some q) → q.2 ≤ b := by
    intro q hq
    rw [hlzip, Option.some.injEq] at hq
    subst hq
    exact henb
  have hcons_ne : ¬ (s0 :: S') = [] := List.cons_ne_nil s0 S'
  have heqMid : (e0 :: E').dropLast.zip S' = midGaps ((s0, e0) :: S'.zip E') := by
    have h := zip_dropLast_tail_eq_midGaps (s0 :: S') (e0 :: E') hlen
    rw [List.tail_cons, List.zip_cons_cons] at h
    exact h
  have heqTail : (e0 :: E').zip (S' ++ [b]) = tailGaps b ((s0, e0) :: S'.zip E') := by
    have h := zip_tail_concat_eq_tailGaps b (s0 :: S') (e0 :: E') hlen hcons_ne
    rw [List.tail_cons, List.zip_cons_cons] at h
    exact h
  by_cases hc1 : s0 = a
  · subst hc1
    rw [if_pos (show (s0 :: S').head? = some s0 from rfl)]
    dsimp only [List.tail_cons]
    by_cases hc2 : en = b
    · -- live at the window start and at the window end: pure mid gaps
      have hcond2 : (e0 :: E').getLast? = some b := by rw [hen, hc2]
      rw [if_pos hcond2]
      dsimp only
      rw [heqMid]
      have hcov := midGaps_cover (S'.zip E') (s0, e0) (sn, en) hchain hlzip
      refine ⟨midGaps_chain _ hchain, hchain, ?_, ?_, fun h => absurd h hcons_ne⟩
      · rintro t ⟨hd, hl⟩
        exact midGaps_disjoint _ hchain t hd hl
      · intro t
        rw [← hc2]
        constructor
        · intro h
          exact (hcov t).mpr h
        · intro h
          exact (hcov t).mp h
    · -- live at the window start, dead at the window end
      have hcond2 : ¬ ((e0 :: E').getLast? = some b) := by
        rw [hen]
        intro h
        rw [Option.some.injEq] at h
        exact hc2 h
      rw [if_neg hcond2]
      dsimp only
      rw [heqTail]
      have hcov := tailGaps_cover b (S'.zip E') (s0, e0) hchain hcov_last
      refine ⟨?_, hchain, ?_, ?_, fun h => absurd h hcons_ne⟩
      · refine tailGaps_chain b _ hchain ?_
        intro q hq
        rw [hlzip, Option.some.injEq] at hq
        subst hq
        omega
      · rintro t ⟨hd, hl⟩
        exact tailGaps_disjoint b _ hchain t hd hl
      · intro t
        constructor
        · intro h
          exact (hcov t).mpr h
        · intro h
          exact (hcov t).mp h
  · -- dead at the window start
    have hcond1 : ¬ ((s0 :: S').head? = some a) := by
      rw [List.head?_cons]
      intro h
      rw [Option.some.injEq] at h
      exact hc1 h
    rw [if_neg hcond1]
    dsimp only
    have has0' : a < s0 := by
      rcases lt_or_eq_of_le has0 with h | h
      · exact h
      · exact absurd h.symm hc1
    by_cases hc2 : en = b
    · -- dead at the window start, live at the window end
      have hcond2 : (a :: e0 :: E').getLast? = some b := by
        rw [List.getLast?_cons_cons, hen, hc2]
      rw [if_pos hcond2]
      dsimp only
      rw [List.dropLast_cons₂, List.zip_cons_cons, heqMid]
      have hcov := midGaps_cover (S'.zip E') (s0, e0) (sn, en) hchain hlzip
      refine ⟨?_, hchain, ?_, ?_, fun h => absurd h hcons_ne⟩
      · refine goodChain_cons has0' ?_ (midGaps_chain _ hchain)
        intro r hr
        cases hSE : S'.zip E' with
        | nil =>
          rw [hSE] at hr
          cases hr
        | cons y ys =>
          rw [hSE, midGaps_cons_cons, List.head?_cons, Option.some.injEq] at hr
          subst hr
          exact hs0e0
      · rintro t ⟨hd, hl⟩
        rcases covered_cons.mp hd with ⟨_, h2⟩ | hd2
        · have := covered_head_le hchain hl
          omega
        · exact midGaps_disjoint _ hchain t hd2 hl
      · intro t
        rw [covered_cons (p := (a, s0))]
        constructor
        · rintro ⟨h1, h2⟩
          by_cases ht : t < s0
          · exact Or.inl (Or.inl ⟨h1, ht⟩)
          · rcases (hcov t).mpr ⟨by omega, by omega⟩ with h | h
            · exact Or.inl (Or.inr h)
            · exact Or.inr h
        · rintro ((⟨h1, h2⟩ | hmid) | hlive)
          · omega
          · have := (hcov t).mp (Or.inl hmid)
            omega
          · have := (hcov t).mp (Or.inr hlive)
            omega
    · -- dead at the window start and at the window end
      have hcond2 : ¬ ((a :: e0 :: E').getLast? = some b) := by
        rw [List.getLast?_cons_cons, hen]
        intro h
        rw [Option.some.injEq] at h
        exact hc2 h
      rw [if_neg hcond2]
      dsimp only
      rw [List.cons_append, List.zip_cons_cons, heqTail]
      have hcov := tailGaps_cover b (S'.zip E') (s0, e0) hchain hcov_last
      refine ⟨?_, hchain, ?_, ?_, fun h => absurd h hcons_ne⟩
      · refine goodChain_cons has0' ?_ ?_
        · intro r hr
          obtain ⟨z, zs, hz⟩ := tailGaps_cons_shape b (s0, e0) (S'.zip E')
          rw [hz, List.head?_cons, Option.some.injEq] at hr
          subst hr
          exact hs0e0
        · refine tailGaps_chain b _ hchain ?_
          intro q hq
          rw [hlzip, Option.some.injEq] at hq
          subst hq
          omega
      · rintro t ⟨hd, hl⟩
        rcases covered_cons.mp hd with ⟨_, h2⟩ | hd2
        · have := covered_head_le hchain hl
          omega
        · exact tailGaps_disjoint b _ hchain t hd2 hl
      · intro t
        rw [covered_cons (p := (a, s0))]
        constructor
        · rintro ⟨h1, h2⟩
          by_cases ht : t < s0
          · exact Or.inl (Or.inl ⟨h1, ht⟩)
          · rcases (hcov t).mpr ⟨by omega, h2⟩ with h | h
            · exact Or.inl (Or.inr h)
            · exact Or.inr h
        · rintro ((⟨h1, h2⟩ | hmid) | hlive)
          · omega
          · have := (hcov t).mp (Or.inl hmid)
            omega
          · have := (hcov t).mp (Or.inr hlive)
            omega

/-- Witness for C8 on a concrete aggregate with two intervals, dead at the
window start and at the window end. -/
theorem C8_witness :
    goodChain (dead_ranges ⟨0, 100, 10, [10, 40], [20, 50]⟩) ∧
      goodChain (live_ranges ⟨0, 100, 10, [10, 40], [20, 50]⟩) ∧
      (∀ t, ¬ (covered (dead_ranges ⟨0, 100, 10, [10, 40], [20, 50]⟩) t ∧
        covered (live_ranges ⟨0, 100, 10, [10, 40], [20, 50]⟩) t)) ∧
      (∀ t, ((0 : Int) ≤ t ∧ t < 100) ↔
        (covered (dead_ranges ⟨0, 100, 10, [10, 40], [20, 50]⟩) t ∨
          covered (live_ranges ⟨0, 100, 10, [10, 40], [20, 50]⟩) t)) ∧
      (([10, 40] : List Int) = [] →
        dead_ranges ⟨0, 100, 10, [10, 40], [20, 50]⟩ = [(0, 100)]) :=
  C8_dead_live_tiling ⟨0, 100, 10, [10, 40], [20, 50]⟩ (by decide) (by decide) (by decide)
    (by intro s0 h; rw [List.head?_cons, Option.some.injEq] at h; subst h; decide)
    (by
      intro en h
      have : en = 50 := by
        rw [show ([20, 50] : List Int).getLast? = some 50 from rfl, Option.some.injEq] at h
        exact h.symm
      subst this
      decide)

end Heartbeat
